import Mathlib

/-!
# Verification of the `liberror` crate

This file gives a shallow embedding, in Lean 4, of the two core components of
the `liberror` repository:

* `src/type_name.rs` — the type-descriptor canonicalization algorithm
  (`process_type_name`, `parse_generics`, `process_base_type`, and the two
  public entry points `standardized_type_name` / `standardized_type_name_of`);
* `src/lib.rs` — the `AnyError` error-chain capture structure, its
  `From<E : Error>` conversion, its `Display` rendering, and its serde-derived
  JSON encoding and decoding.

Modelling conventions:

* Rust strings are modelled as `List Char`.  All string positions that the
  source computes (`find`, `rfind`, slice indices, `split_at`) are byte
  offsets in Rust; over the ASCII alphabets exercised here byte offsets and
  character offsets coincide, so positions are modelled as indices into the
  character list.
* A Rust panic (an out-of-range or inverted slice index) is modelled by
  returning `none`; functions that cannot panic are total.
* Recursive string functions are defined with an explicit fuel parameter and
  are invoked with fuel `length + 1`.  Every recursive call strictly decreases
  the length of the string argument, so the supplied fuel is never exhausted;
  the fuel only makes the definitions structurally recursive (hence kernel
  reducible).  Theorems about these functions quantify over any sufficiently
  large fuel.
-/

/-! ## String utilities (models of the `str` primitives used by the source) -/

/-- Rust `str::find(c)`: index of the first occurrence of a character. -/
def posFind (c : Char) : List Char → Option Nat
  | [] => none
  | x :: xs => if x = c then some 0 else (posFind c xs).map (· + 1)

/-- Rust `str::rfind(c)`: index of the last occurrence of a character. -/
def posRFind (c : Char) (s : List Char) : Option Nat :=
  (posFind c s.reverse).map (fun i => s.length - 1 - i)

/-- Rust slice `&s[a..b]` (the caller guards `a ≤ b`; an inverted range is a
panic, handled at the call site). -/
def sliceStr (s : List Char) (a b : Nat) : List Char :=
  (s.drop a).take (b - a)

/-- Rust `str::trim`. -/
def trimStr (s : List Char) : List Char :=
  ((s.dropWhile Char.isWhitespace).reverse.dropWhile Char.isWhitespace).reverse

/-- Rust `str::starts_with(pat)`. -/
def startsWithStr (pat s : List Char) : Bool :=
  List.isPrefixOf pat s

/-- Rust `str::contains(pat)` for a string pattern: some position of `s`
starts with `pat`. -/
def containsStr (pat : List Char) : List Char → Bool
  | [] => List.isPrefixOf pat []
  | c :: rest => List.isPrefixOf pat (c :: rest) || containsStr pat rest

/-- Worker for `splitOnStr` (fuelled; fuel `length + 1` always suffices since
each step consumes at least one character). -/
def splitOnStrF (pat : List Char) : Nat → List Char → List Char → List (List Char)
  | 0 => fun _ acc => [acc.reverse]
  | f + 1 => fun s acc =>
    match s with
    | [] => [acc.reverse]
    | c :: rest =>
      if List.isPrefixOf pat (c :: rest) then
        acc.reverse :: splitOnStrF pat f (rest.drop (pat.length - 1)) []
      else
        splitOnStrF pat f rest (c :: acc)

/-- Rust `str::split(pat)` for a non-empty string pattern, collected into a
list: the fragments between consecutive non-overlapping occurrences of `pat`,
scanning left to right. -/
def splitOnStr (pat s : List Char) : List (List Char) :=
  splitOnStrF pat (s.length + 1) s []

/-! ## `src/type_name.rs`: the canonicalization algorithm -/

/-- The part of `fn process_base_type` past the `dyn ` block (reached when
the input contains no `"dyn "`, or when — impossibly — `split("dyn ").nth(1)`
is `None`): the `match` table of well-known names, then the
`std::`/`core::`/`alloc::` prefix rule (keep only the last `::` segment),
else the input unchanged. -/
def processBaseTail (b : List Char) : List Char :=
  if b = "core::fmt::Debug".toList then "Debug".toList
  else if b = "core::fmt::Display".toList then "Display".toList
  else if b = "core::any::Any".toList then "Any".toList
  else if startsWithStr "std::".toList b || startsWithStr "core::".toList b
          || startsWithStr "alloc::".toList b then
    match (splitOnStr "::".toList b).getLast? with
    | some last => last
    | none => b
  else b

/-- `fn process_base_type(base_type: &str) -> String` (fuelled; the only
recursive call strictly shrinks the string, so fuel `length + 1` suffices;
on fuel exhaustion — unreachable at the fuel supplied by `processBaseType` —
the input is returned unchanged).

Control flow of the source: the `std::error::Error` early return; then the
`if base_type.contains("dyn ")` block, whose `if let Some(part) =
split("dyn ").nth(1)` returns `"dyn "` + the recursive call; everything
falling through those lands in `processBaseTail`. -/
def processBaseTypeF : Nat → List Char → List Char
  | 0 => fun b => b
  | f + 1 => fun b =>
    if b = "std::error::Error".toList then "Error".toList
    else if containsStr "dyn ".toList b then
      match (splitOnStr "dyn ".toList b).get? 1 with
      | some part => "dyn ".toList ++ processBaseTypeF f part
      | none => processBaseTail b
    else processBaseTail b

/-- `process_base_type`, at adequate fuel. -/
def processBaseType (b : List Char) : List Char :=
  processBaseTypeF (b.length + 1) b

/-- The scanning loop of `fn parse_generics`: iterate over the characters of
`g` (with their indices), tracking an angle-bracket depth; split at commas at
depth 0, trimming each pushed segment; the trailing segment is pushed only if
non-empty after trimming.  `l` is the remaining character list, `i` the index
of its head in `g`, `start` the start index of the current segment, `acc` the
(reversed) list of segments pushed so far. -/
def splitGenericsGo (g : List Char) : List Char → Nat → Int → Nat →
    List (List Char) → List (List Char)
  | [], _, _, start, acc =>
    let last := trimStr (g.drop start)
    if last = [] then acc.reverse else acc.reverse ++ [last]
  | c :: rest, i, depth, start, acc =>
    if c = '<' then splitGenericsGo g rest (i + 1) (depth + 1) start acc
    else if c = '>' then splitGenericsGo g rest (i + 1) (depth - 1) start acc
    else if c = ',' ∧ depth = 0 then
      splitGenericsGo g rest (i + 1) depth (i + 1) (trimStr (sliceStr g start i) :: acc)
    else splitGenericsGo g rest (i + 1) depth start acc

/-- The segment-splitting part of `fn parse_generics`: the list of trimmed
top-level (depth-0) comma-separated segments of `g`. -/
def splitGenerics (g : List Char) : List (List Char) :=
  splitGenericsGo g g 0 0 0 []

/-- Index-free restatement of the `parse_generics` scanning loop, carrying
the current segment (`cur`) instead of indices into the original string;
proved equivalent to `splitGenericsGo` below and used in its place in
symbolic reasoning. -/
def splitGenericsAbs : List Char → Int → List Char → List (List Char)
  | [], _, cur => if trimStr cur = [] then [] else [trimStr cur]
  | c :: rest, depth, cur =>
    if c = '<' then splitGenericsAbs rest (depth + 1) (cur ++ [c])
    else if c = '>' then splitGenericsAbs rest (depth - 1) (cur ++ [c])
    else if c = ',' ∧ depth = 0 then trimStr cur :: splitGenericsAbs rest depth []
    else splitGenericsAbs rest depth (cur ++ [c])

/-- Apply a fallible transform to every element of a list (the `iter().map()`
over parsed generic parameters; a `none` models a panic of the transform on
some element). -/
def mapOpt (φ : List Char → Option (List Char)) :
    List (List Char) → Option (List (List Char))
  | [] => some []
  | x :: xs =>
    match φ x, mapOpt φ xs with
    | some y, some ys => some (y :: ys)
    | _, _ => none

/-- `Vec::join(", ")`. -/
def joinComma : List (List Char) → List Char
  | [] => []
  | [x] => x
  | x :: y :: rest => x ++ ',' :: ' ' :: joinComma (y :: rest)

/-- `fn process_type_name(type_name: &str) -> String`, fuelled.  `none`
models a panic.  Every recursive call strictly decreases the string length,
so the fuel `length + 1` supplied by `processTypeName` is never exhausted
(fuel exhaustion itself answers `none`).

The body of `fn parse_generics` is inlined in the generic-instantiation
branch: split the argument text at depth-0 commas (`splitGenerics`), process
each segment recursively, join with `", "`. -/
def processTypeNameF : Nat → List Char → Option (List Char)
  | 0 => fun _ => none
  | f + 1 => fun s =>
    -- if type_name.starts_with('[') && type_name.contains(';')
    if startsWithStr "[".toList s ∧ s.contains ';' then
      match posFind ';' s, posRFind ']' s with
      | some semi, some br =>
        -- let element_type = &type_name[1..semicolon_pos].trim();
        let elem := trimStr (sliceStr s 1 semi)
        -- let size = &type_name[semicolon_pos..bracket_pos];
        -- (a Rust slice with start > end panics)
        if br < semi then none
        else
          match processTypeNameF f elem with
          | none => none
          | some pe => some ('[' :: (pe ++ sliceStr s semi br ++ [']']))
      | _, _ =>
        -- the `if let` failed (no ']' present): return type_name.to_string()
        some s
    -- if type_name.starts_with('&')
    else if startsWithStr "&".toList s then
      match processTypeNameF f (s.drop 1) with
      | none => none
      | some r => some ('&' :: r)
    -- if type_name.starts_with("*const ") || type_name.starts_with("*mut ")
    else if startsWithStr "*const ".toList s ∨ startsWithStr "*mut ".toList s then
      -- let (pointer_type, pointed_type) = type_name.split_at(6);
      -- (split_at(6) panics when the string is shorter than 6 bytes)
      if s.length < 6 then none
      else
        match processTypeNameF f (s.drop 6) with
        | none => none
        | some r => some (s.take 6 ++ ' ' :: r)
    -- if type_name.starts_with("dyn ")
    else if startsWithStr "dyn ".toList s then
      some ("dyn ".toList ++ processBaseType (s.drop 4))
    else
      -- if let (Some(generic_start), true) = (find('<'), ends_with('>'))
      match posFind '<' s with
      | some gs =>
        if s.getLast? = some '>' then
          let base := s.take gs
          let g := sliceStr s (gs + 1) (s.length - 1)
          match mapOpt (processTypeNameF f) (splitGenerics g) with
          | none => none
          | some params =>
            some (processBaseType base ++ '<' :: (joinComma params ++ ['>']))
        else some (processBaseType s)
      | none => some (processBaseType s)

/-- `process_type_name`, at adequate fuel. -/
def processTypeName (s : List Char) : Option (List Char) :=
  processTypeNameF (s.length + 1) s

/-- The reflective type name `std::any::type_name::<T>()` of a Rust type, the
host runtime's type-introspection facility (spec §6): modelled as an
uninterpreted per-type constant. -/
class ReflectedName (α : Type) where
  reflName : List Char

/-- `pub fn standardized_type_name<T: 'static>() -> String`. -/
def standardizedTypeName (α : Type) [ReflectedName α] : Option (List Char) :=
  processTypeName (ReflectedName.reflName α)

/-- `pub fn standardized_type_name_of<T: ?Sized>(_: &T) -> String` (the
argument is used only for its type). -/
def standardizedTypeNameOf {α : Type} [ReflectedName α] (_ : α) : Option (List Char) :=
  processTypeName (ReflectedName.reflName α)

/-! ## `src/lib.rs`: the `AnyError` capture structure

`struct AnyError { r#type: String, context: AnyErrorContext }` with
`struct AnyErrorContext { message: String, inner_error: Option<Box<AnyError>> }`
is flattened into a single recursive inductive (the `context` wrapper struct
holds no behavior of its own; its two fields appear directly).  Heap
indirection (`Box`) is implicit in Lean. -/
inductive AnyError where
  | mk (ty : List Char) (message : List Char) (innerError : Option AnyError)

/-- The `r#type` field (serialized as `$type`). -/
def AnyError.ty : AnyError → List Char
  | .mk t _ _ => t

/-- The `context.message` field. -/
def AnyError.message : AnyError → List Char
  | .mk _ m _ => m

/-- The `context.inner_error` field (serialized as `innerError`). -/
def AnyError.innerError : AnyError → Option AnyError
  | .mk _ _ i => i

/-- The capability interface consumed by `impl<E: Error> From<E> for AnyError`
(spec §4.2): a native error exposes a rendered message and an optional cause
(`Error::source`).  A value of this inductive type is a finite, hence acyclic,
cause chain. -/
inductive SourceError where
  | mk (message : List Char) (source : Option SourceError)

/-- Rendered message of a source error (`format!("{value}")`). -/
def SourceError.message : SourceError → List Char
  | .mk m _ => m

/-- Cause of a source error (`value.source()`). -/
def SourceError.source : SourceError → Option SourceError
  | .mk _ s => s

/-- Number of errors in a cause chain (the chain's length `n ≥ 1`). -/
def SourceError.chainLen : SourceError → Nat
  | .mk _ none => 1
  | .mk _ (some s) => SourceError.chainLen s + 1

/-- Messages of a cause chain, outermost first. -/
def SourceError.messages : SourceError → List (List Char)
  | .mk m none => [m]
  | .mk m (some s) => m :: SourceError.messages s

/-- The reflective name `std::any::type_name::<&dyn std::error::Error>()`:
the type at which `AnyError::from` is instantiated for every cause, because
`Error::source` returns `Option<&(dyn Error + 'static)>`. -/
def refDynErrorName : List Char := "&dyn std::error::Error".toList

/-- `impl<E: Error + Sized> From<E> for AnyError`, monomorphized at a type
whose reflective name is `tyName`:

* `r#type = standardized_type_name_of(&value)` — i.e.
  `process_type_name(tyName)`;
* `message = format!("{value}")`;
* `inner_error = value.source().map(|e| Box::new(AnyError::from(e)))`, where
  the recursive call is instantiated at `E = &dyn Error`, so its type string
  comes from `refDynErrorName` regardless of the cause's concrete type.

`none` propagates a panic of `process_type_name`. -/
def anyErrorFrom (tyName : List Char) : SourceError → Option AnyError
  | .mk msg src =>
    match processTypeName tyName with
    | none => none
    | some ty =>
      match src with
      | none => some (.mk ty msg none)
      | some s =>
        match anyErrorFrom refDynErrorName s with
        | none => none
        | some inner => some (.mk ty msg (some inner))

/-- Number of nodes in an `AnyError` chain. -/
def AnyError.nodeCount : AnyError → Nat
  | .mk _ _ none => 1
  | .mk _ _ (some c) => AnyError.nodeCount c + 1

/-- Nesting depth of an `AnyError` chain (a single node has depth 0). -/
def AnyError.depth : AnyError → Nat
  | .mk _ _ none => 0
  | .mk _ _ (some c) => AnyError.depth c + 1

/-- Messages of an `AnyError` chain, outermost first. -/
def AnyError.messages : AnyError → List (List Char)
  | .mk _ m none => [m]
  | .mk _ m (some c) => m :: AnyError.messages c

/-- The strict descendants of a node: every node of the chain below it. -/
def AnyError.descendants : AnyError → List AnyError
  | .mk _ _ none => []
  | .mk _ _ (some c) => c :: AnyError.descendants c

/-- `impl Display for AnyError`: `write!(f, "{}: {}", type, message)`, then,
if `inner_error` is `Some`, `write!(f, "({inner})")`. -/
def AnyError.display : AnyError → List Char
  | .mk ty msg none => ty ++ ": ".toList ++ msg
  | .mk ty msg (some c) => ty ++ ": ".toList ++ msg ++ '(' :: (AnyError.display c ++ [')'])

/-! ### The JSON wire format

`serde_json` values, restricted to what the codec of `AnyError` can meet. -/
inductive Json where
  | null
  | jbool (b : Bool)
  | jnum (n : Int)
  | jstr (s : List Char)
  | jarr (elems : List Json)
  | jobj (fields : List (List Char × Json))

/-- First value bound to a key in a JSON object, if any. -/
def findKey (key : List Char) : List (List Char × Json) → Option Json
  | [] => none
  | (k, v) :: rest => if k = key then some v else findKey key rest

/-- Whether a key occurs at least twice (serde rejects duplicate fields). -/
def dupKey (key : List Char) : List (List Char × Json) → Bool
  | [] => false
  | (k, _) :: rest => if k = key then (findKey key rest).isSome else dupKey key rest

/-- `#[derive(Serialize)]` with `#[serde(rename_all = "camelCase")]` and
`#[serde(rename = "$type")]`: fields in declaration order;
`Option::<Box<AnyError>>::None` serializes as `null`. -/
def encodeAnyError : AnyError → Json
  | .mk ty msg child =>
    .jobj [("$type".toList, .jstr ty),
      ("context".toList, .jobj [("message".toList, .jstr msg),
        ("innerError".toList,
          match child with
          | none => Json.null
          | some c => encodeAnyError c)])]

/-- `Option::<Box<AnyError>>::deserialize` from a JSON value, given the
deserializer `rec` for the boxed `AnyError` (serde_json `deserialize_option`):
`null` decodes to `None`; any other value is deserialized as the inner
`AnyError` and wrapped in `Some`. -/
def decodeInnerF (rec : Json → Except (List Char) AnyError) :
    Json → Except (List Char) (Option AnyError)
  | Json.null => .ok none
  | v =>
    match rec v with
    | .error e => .error e
    | .ok t => .ok (some t)

/-- `AnyErrorContext::deserialize` from a JSON value, given the deserializer
`rec` for the recursive `innerError` field.  serde_json decodes a derived
struct from either of two shapes:

* a JSON *object*, by the derived map visitor: fields in any order, unknown
  fields ignored, a duplicated known field rejected; `message : String` is
  required with a string value; a *missing* `innerError` decodes to `None`
  (serde resolves a missing `Option` field to `None`), a present one decodes
  by `decodeInnerF`;
* a JSON *array*, by the derived sequence visitor (serde_json's positional
  struct format): exactly the two field values in declaration order,
  `[message, innerError]` — positionally, `innerError` is required (though it
  may be `null`); a shorter array is an invalid-length error and a longer one
  a trailing-elements error;
* any other value is an invalid-type error. -/
def decodeCtxF (rec : Json → Except (List Char) AnyError) :
    Json → Except (List Char) (List Char × Option AnyError)
  | .jobj gs =>
    if dupKey "message".toList gs then .error "duplicate field message".toList
    else if dupKey "innerError".toList gs then
      .error "duplicate field innerError".toList
    else
      match findKey "message".toList gs with
      | none => .error "missing field message".toList
      | some (.jstr msg) =>
        match findKey "innerError".toList gs with
        | none => .ok (msg, none)
        | some v =>
          match decodeInnerF rec v with
          | .error e => .error e
          | .ok inner => .ok (msg, inner)
      | some _ => .error "invalid type for field message".toList
  | .jarr [mv, iv] =>
    match mv with
    | .jstr msg =>
      match decodeInnerF rec iv with
      | .error e => .error e
      | .ok inner => .ok (msg, inner)
    | _ => .error "invalid type for field message".toList
  | .jarr _ => .error "invalid length for AnyErrorContext".toList
  | _ => .error "invalid type for AnyErrorContext".toList

/-- `#[derive(Deserialize)]` for `AnyError` from a JSON value, fuelled (one
unit of fuel per `innerError` nesting level; fuel exhaustion — unreachable at
fuel exceeding the nesting depth — is an error).  Like every serde_json
derived struct decoder it accepts two payload shapes:

* a JSON *object*, by the derived map visitor: fields in any order, unknown
  fields ignored, duplicates rejected; `$type : String` and
  `context : AnyErrorContext` both required, `context` decoded by
  `decodeCtxF`;
* a JSON *array*, serde_json's positional struct format: exactly
  `[$type, context]` in declaration order;
* any other value is an invalid-type error. -/
def decodeAnyErrorF : Nat → Json → Except (List Char) AnyError
  | 0 => fun _ => .error "recursion limit reached".toList
  | f + 1 => fun j =>
    match j with
    | .jobj fs =>
      if dupKey "$type".toList fs then .error "duplicate field $type".toList
      else if dupKey "context".toList fs then .error "duplicate field context".toList
      else
        match findKey "$type".toList fs with
        | none => .error "missing field $type".toList
        | some (.jstr ty) =>
          match findKey "context".toList fs with
          | none => .error "missing field context".toList
          | some cv =>
            match decodeCtxF (decodeAnyErrorF f) cv with
            | .error e => .error e
            | .ok (msg, inner) => .ok (.mk ty msg inner)
        | some _ => .error "invalid type for field $type".toList
    | .jarr [tv, cv] =>
      match tv with
      | .jstr ty =>
        match decodeCtxF (decodeAnyErrorF f) cv with
        | .error e => .error e
        | .ok (msg, inner) => .ok (.mk ty msg inner)
      | _ => .error "invalid type for field $type".toList
    | .jarr _ => .error "invalid length for AnyError".toList
    | _ => .error "invalid type for AnyError".toList

mutual
/-- Wire payloads on which deserializing an `AnyError` fails (spec §4.2, §6),
accounting for both payload shapes serde_json accepts for a derived struct (a
map of its fields, or the positional two-element array of their values): a
payload that is neither an object nor an array; an object in which `$type` or
`context` is missing, or `$type` has a non-string value, or the `context`
value itself fails to decode; an array whose length is not 2, or whose first
(`$type`) element is not a string, or whose second (`context`) element fails
to decode.  (A *missing* `innerError` inside an object-shaped context is
deliberately not listed: see the decoding theorems.) -/
inductive Malformed : Json → Prop where
  | notStruct (j : Json) (ho : ∀ fs, j ≠ .jobj fs) (ha : ∀ es, j ≠ .jarr es) :
      Malformed j
  | missingType (fs) (h : findKey "$type".toList fs = none) : Malformed (.jobj fs)
  | wrongType (fs v) (h : findKey "$type".toList fs = some v)
      (hv : ∀ s, v ≠ .jstr s) : Malformed (.jobj fs)
  | missingContext (fs) (h : findKey "context".toList fs = none) :
      Malformed (.jobj fs)
  | badContext (fs v) (h : findKey "context".toList fs = some v)
      (hm : MalformedCtx v) : Malformed (.jobj fs)
  | seqLen (es : List Json) (h : es.length ≠ 2) : Malformed (.jarr es)
  | seqType (tv cv : Json) (hv : ∀ s, tv ≠ .jstr s) : Malformed (.jarr [tv, cv])
  | seqContext (tv cv : Json) (hm : MalformedCtx cv) : Malformed (.jarr [tv, cv])
/-- Values on which deserializing an `AnyErrorContext` fails, by the same two
shapes: neither an object nor an array; an object in which `message` is
missing or non-string, or whose present `innerError` value is non-`null` yet
fails to decode as a nested `AnyError`; an array whose length is not 2, or
whose first (`message`) element is not a string, or whose second
(`innerError`) element is non-`null` yet fails to decode. -/
inductive MalformedCtx : Json → Prop where
  | ctxNotStruct (v : Json) (ho : ∀ gs, v ≠ .jobj gs) (ha : ∀ es, v ≠ .jarr es) :
      MalformedCtx v
  | missingMessage (gs) (h : findKey "message".toList gs = none) :
      MalformedCtx (.jobj gs)
  | wrongMessage (gs v) (h : findKey "message".toList gs = some v)
      (hv : ∀ s, v ≠ .jstr s) : MalformedCtx (.jobj gs)
  | badInner (gs w) (h : findKey "innerError".toList gs = some w)
      (hnull : w ≠ .null) (hm : Malformed w) : MalformedCtx (.jobj gs)
  | ctxSeqLen (es : List Json) (h : es.length ≠ 2) : MalformedCtx (.jarr es)
  | ctxSeqMessage (mv iv : Json) (hv : ∀ s, mv ≠ .jstr s) :
      MalformedCtx (.jarr [mv, iv])
  | ctxSeqInner (mv iv : Json) (hnull : iv ≠ .null) (hm : Malformed iv) :
      MalformedCtx (.jarr [mv, iv])
end

/-! ## A grammar of well-formed type descriptors

The spec never defines "well-formed descriptor" formally; §4.1 describes the
descriptor syntax as path-shaped base names with generic angle-bracket
notation, reference and raw-pointer sigils, fixed-size array notation and
trait-object markers.  The grammar below renders exactly those forms, with
two provisos:

* array element descriptors are semicolon-free (no array nested inside an
  array element), so that the first `;` of an array descriptor is the
  element/size separator that §4.1 step 1 splits on;
* raw-pointer descriptors are excluded: the pointer branch of the source
  mis-splits its input (see the claim-5 theorems), and repeated application
  to a pointer descriptor is *not* idempotent (see the claim-2
  counterexample), so the idempotence theorem is stated for the
  pointer-free fragment.
-/

/-- Characters allowed in a path segment (identifier): letters, digits,
underscore.  Excludes all structural characters of the descriptor syntax
(`[ ] & * < > , ; :` and whitespace). -/
def identChar (c : Char) : Bool := c.isAlphanum || c = '_'

/-- A well-formed path segment. -/
def identOk (s : List Char) : Bool := !s.isEmpty && s.all identChar

/-- A well-formed `::`-separated path. -/
def pathOk (p : List (List Char)) : Bool := !p.isEmpty && p.all identOk

/-- Render a path with `::` separators. -/
def renderPath : List (List Char) → List Char
  | [] => []
  | [a] => a
  | a :: b :: rest => a ++ ':' :: ':' :: renderPath (b :: rest)

mutual
/-- Abstract syntax of well-formed descriptors (`DescArgs` is a non-empty
generic-argument list). -/
inductive Desc where
  | base (p : List (List Char))
  | dynT (p : List (List Char))
  | ref (d : Desc)
  | generic (p : List (List Char)) (args : DescArgs)
  | arr (elem : Desc) (size : List Char)
inductive DescArgs where
  | single (d : Desc)
  | cons (d : Desc) (rest : DescArgs)
end

mutual
/-- Concrete descriptor string of a `Desc`. -/
def render : Desc → List Char
  | .base p => renderPath p
  | .dynT p => "dyn ".toList ++ renderPath p
  | .ref d => '&' :: render d
  | .generic p args => renderPath p ++ '<' :: (renderArgs args ++ ['>'])
  | .arr d n => '[' :: (render d ++ ';' :: ' ' :: (n ++ [']']))
/-- Concrete text of a generic-argument list, joined with `", "`. -/
def renderArgs : DescArgs → List Char
  | .single d => render d
  | .cons d rest => render d ++ ',' :: ' ' :: renderArgs rest
end

/-- The rendered generic arguments as a list of strings. -/
def renderList : DescArgs → List (List Char)
  | .single d => [render d]
  | .cons d rest => render d :: renderList rest

mutual
/-- Whether a descriptor contains an array form anywhere. -/
def hasArr : Desc → Bool
  | .base _ => false
  | .dynT _ => false
  | .ref d => hasArr d
  | .generic _ args => hasArrArgs args
  | .arr _ _ => true
def hasArrArgs : DescArgs → Bool
  | .single d => hasArr d
  | .cons d rest => hasArr d || hasArrArgs rest
end

mutual
/-- Well-formedness: paths are well formed, array sizes are non-empty digit
strings, and array elements contain no nested array. -/
def WF : Desc → Bool
  | .base p => pathOk p
  | .dynT p => pathOk p
  | .ref d => WF d
  | .generic p args => pathOk p && WFArgs args
  | .arr d n => WF d && !hasArr d && !n.isEmpty && n.all Char.isDigit
def WFArgs : DescArgs → Bool
  | .single d => WF d
  | .cons d rest => WF d && WFArgs rest
end

/-- The effect of `process_base_type` on a well-formed path: the four
well-known fully-qualified names map to their short aliases; otherwise a path
whose head is one of the three standard-namespace roots (and which has at
least two segments, so that the rendered path actually starts with
`root::`) keeps only its final segment; everything else is unchanged. -/
def canonPath (p : List (List Char)) : List (List Char) :=
  if p = ["std".toList, "error".toList, "Error".toList] then ["Error".toList]
  else if p = ["core".toList, "fmt".toList, "Debug".toList] then ["Debug".toList]
  else if p = ["core".toList, "fmt".toList, "Display".toList] then ["Display".toList]
  else if p = ["core".toList, "any".toList, "Any".toList] then ["Any".toList]
  else if 2 ≤ p.length ∧ (p.head? = some "std".toList ∨ p.head? = some "core".toList
      ∨ p.head? = some "alloc".toList) then
    match p.getLast? with
    | some last => [last]
    | none => p
  else p

mutual
/-- Canonical form of a well-formed descriptor: shorten every path in base
position, recursively. -/
def canonD : Desc → Desc
  | .base p => .base (canonPath p)
  | .dynT p => .dynT (canonPath p)
  | .ref d => .ref (canonD d)
  | .generic p args => .generic (canonPath p) (canonArgs args)
  | .arr d n => .arr (canonD d) n
def canonArgs : DescArgs → DescArgs
  | .single d => .single (canonD d)
  | .cons d rest => .cons (canonD d) (canonArgs rest)
end

/-- `Result::is_ok` for decode results. -/
def exceptIsOk : Except (List Char) AnyError → Bool
  | .ok _ => true
  | .error _ => false

/-- `Result::is_ok` for context-decode results. -/
def ctxIsOk : Except (List Char) (List Char × Option AnyError) → Bool
  | .ok _ => true
  | .error _ => false

/-- `Result::is_ok` for `Option`-decode results. -/
def innerIsOk : Except (List Char) (Option AnyError) → Bool
  | .ok _ => true
  | .error _ => false

/-! ## Basic lemmas about the string primitives -/

theorem isPrefixOf_append_self (pat s : List Char) :
    List.isPrefixOf pat (pat ++ s) = true := by
  induction pat with
  | nil => simp [List.isPrefixOf]
  | cons a as ih => simp [List.isPrefixOf, ih]

theorem mem_of_isPrefixOf (pat s : List Char) (h : List.isPrefixOf pat s = true) :
    ∀ c ∈ pat, c ∈ s := by
  induction pat generalizing s with
  | nil => intro c hc; cases hc
  | cons a as ih =>
    cases s with
    | nil => simp [List.isPrefixOf] at h
    | cons b bs =>
      simp only [List.isPrefixOf, Bool.and_eq_true, beq_iff_eq] at h
      obtain ⟨rfl, h2⟩ := h
      intro c hc
      rcases List.mem_cons.mp hc with rfl | hc
      · exact List.mem_cons_self c bs
      · exact List.mem_cons_of_mem a (ih bs h2 c hc)

theorem get?_of_isPrefixOf (pat s : List Char) (h : List.isPrefixOf pat s = true) :
    ∀ i, i < pat.length → s.get? i = pat.get? i := by
  induction pat generalizing s with
  | nil => intro i hi; cases hi
  | cons a as ih =>
    cases s with
    | nil => simp [List.isPrefixOf] at h
    | cons b bs =>
      simp only [List.isPrefixOf, Bool.and_eq_true, beq_iff_eq] at h
      intro i hi
      cases i with
      | zero => simp [h.1]
      | succ n => simpa using ih bs h.2 n (by simpa using hi)

theorem length_le_of_isPrefixOf (pat s : List Char) (h : List.isPrefixOf pat s = true) :
    pat.length ≤ s.length := by
  induction pat generalizing s with
  | nil => simp
  | cons a as ih =>
    cases s with
    | nil => simp [List.isPrefixOf] at h
    | cons b bs =>
      simp only [List.isPrefixOf, Bool.and_eq_true] at h
      simpa using ih bs h.2

/-! ## Claim theorems: evaluation facts about the canonicalizer -/

/-- **C1** (code bug).  Canonicalization is *not* total: on the descriptor
`"[];"` — which begins with `[` and contains `;` but whose last `]` precedes
its first `;` — the slice `&type_name[semicolon_pos..bracket_pos]` is the
inverted range `[2..1]` and the function panics, instead of returning the
input unchanged.  By contrast, when the `(find(';'), rfind(']'))` pattern
match fails (no `]` at all, as in `"[;x"`), the input *is* returned
unchanged, as the claim describes. -/
theorem process_type_name_panics_on_unsplittable_array :
    processTypeName "[];".toList = none ∧
      processTypeName "[;x".toList = some "[;x".toList :=
  ⟨rfl, rfl⟩

/-- **C5** (code bug).  The raw-pointer branch does not split off the pointer
sigil: it splits after 6 bytes, but `"*mut "` is 5 bytes and `"*const "` is
7, so `*mut i32` canonicalizes to `"*mut i 32"` (the `i` is captured into the
sigil) and `*const i32` canonicalizes to `"*const  i32"` (two spaces), not to
the sigil rejoined with a single space as the claim states. -/
theorem pointer_split_mangles_descriptor :
    processTypeName "*mut i32".toList = some "*mut i 32".toList ∧
      processTypeName "*const i32".toList = some "*const  i32".toList :=
  ⟨rfl, rfl⟩

/-- **C8** (confirmed).  The boxed standard-error trait object descriptor
canonicalizes to `Box<dyn Error>`, and the already-minimal descriptor
`HashMap<String, Vec<Option<i32>>>` canonicalizes to itself. -/
theorem canonicalization_examples :
    processTypeName "alloc::boxed::Box<dyn std::error::Error>".toList =
        some "Box<dyn Error>".toList ∧
      processTypeName "HashMap<String, Vec<Option<i32>>>".toList =
        some "HashMap<String, Vec<Option<i32>>>".toList :=
  ⟨rfl, rfl⟩

/-- **C10** (confirmed).  The two public entry points agree: for every type
and every two values of it, `standardized_type_name::<T>()` and
`standardized_type_name_of(&x)` are both `process_type_name` of the type's
reflective name, and the value argument is ignored. -/
theorem entry_points_agree (α : Type) [ReflectedName α] (x y : α) :
    standardizedTypeNameOf x = standardizedTypeName α ∧
      standardizedTypeNameOf x = standardizedTypeNameOf y ∧
      standardizedTypeName α = processTypeName (ReflectedName.reflName α) :=
  ⟨rfl, rfl, rfl⟩

/-- **C2** (counterexample).  `"*const i32"` is a well-formed descriptor (it
is exactly what the runtime reports for the type `*const i32`), yet
canonicalizing twice differs from canonicalizing once: each application
inserts one more space after the sigil. -/
theorem process_type_name_not_idempotent_on_const_pointer :
    (processTypeName "*const i32".toList).bind processTypeName ≠
      processTypeName "*const i32".toList := by
  decide

/-! ## Claim theorems: display rendering -/

/-- **C7** (confirmed).  Every node renders as `"<type>: <message>"`; a node
with a child appends exactly the child's rendering wrapped in parentheses,
and the rendering equals the bare `"<type>: <message>"` text if and only if
the node is a leaf. -/
theorem display_shape (t : AnyError) :
    (∀ c, t.innerError = some c →
      t.display = t.ty ++ ": ".toList ++ t.message ++ '(' :: (c.display ++ [')'])) ∧
    (t.display = t.ty ++ ": ".toList ++ t.message ↔ t.innerError = none) := by
  obtain ⟨ty, msg, child⟩ := t
  cases child with
  | none =>
    constructor
    · intro c hc
      exact absurd hc (by simp [AnyError.innerError])
    · simp [AnyError.display, AnyError.ty, AnyError.message, AnyError.innerError]
  | some c =>
    constructor
    · intro c0 hc0
      have hc1 : c = c0 := by simpa [AnyError.innerError] using hc0
      subst hc1
      rfl
    · constructor
      · intro h
        exfalso
        have hlen := congrArg List.length h
        simp [AnyError.display, AnyError.ty, AnyError.message] at hlen
      · intro h
        exact absurd h (by simp [AnyError.innerError])

/-- Witness for `display_shape` at a two-node chain. -/
theorem display_shape_witness :
    (AnyError.mk "E".toList "m".toList (some (.mk "F".toList "n".toList none))).display
      = "E: m(F: n)".toList := by
  have h := (display_shape (.mk "E".toList "m".toList
    (some (.mk "F".toList "n".toList none)))).1 (.mk "F".toList "n".toList none) rfl
  simpa using h

/-! ## Claim theorems: chain flattening (`From<E> for AnyError`) -/

/-- A successful conversion stores the canonicalization of the reflective
type name it was instantiated at. -/
theorem anyErrorFrom_ty (tyName : List Char) (e : SourceError) (t : AnyError)
    (h : anyErrorFrom tyName e = some t) :
    processTypeName tyName = some t.ty := by
  obtain ⟨msg, src⟩ := e
  cases hp : processTypeName tyName with
  | none => simp [anyErrorFrom, hp] at h
  | some ty =>
    cases src with
    | none =>
      simp only [anyErrorFrom, hp] at h
      cases h
      rfl
    | some s =>
      simp only [anyErrorFrom, hp] at h
      cases hin : anyErrorFrom refDynErrorName s with
      | none => rw [hin] at h; cases h
      | some inner =>
        rw [hin] at h
        cases h
        rfl

/-- **C6** (confirmed).  A successful conversion of a cause chain of length
`n` yields a node chain of exactly `n` nodes, of nesting depth `n - 1`, with
the source messages in order. -/
theorem from_preserves_chain_length :
    ∀ (tyName : List Char) (e : SourceError) (t : AnyError),
      anyErrorFrom tyName e = some t →
      t.nodeCount = e.chainLen ∧ t.depth = e.chainLen - 1 ∧ t.messages = e.messages
  | tyName, .mk msg none, t, h => by
    cases hp : processTypeName tyName with
    | none => simp [anyErrorFrom, hp] at h
    | some ty =>
      simp only [anyErrorFrom, hp] at h
      cases h
      refine ⟨rfl, rfl, rfl⟩
  | tyName, .mk msg (some s), t, h => by
    cases hp : processTypeName tyName with
    | none => simp [anyErrorFrom, hp] at h
    | some ty =>
      simp only [anyErrorFrom, hp] at h
      cases hin : anyErrorFrom refDynErrorName s with
      | none => rw [hin] at h; cases h
      | some inner =>
        rw [hin] at h
        cases h
        obtain ⟨h1, h2, h3⟩ := from_preserves_chain_length refDynErrorName s inner hin
        refine ⟨?_, ?_, ?_⟩
        · simp [AnyError.nodeCount, SourceError.chainLen, h1]
        · simp only [AnyError.depth, SourceError.chainLen]
          have hpos : 1 ≤ s.chainLen := by
            cases s with
            | mk m src => cases src <;> simp [SourceError.chainLen]
          omega
        · simp [AnyError.messages, SourceError.messages, h3]

/-- Witness for `from_preserves_chain_length`: a three-level chain converts
to three nodes of depth 2 with the messages in order. -/
theorem from_preserves_chain_length_witness :
    anyErrorFrom "my_crate::DeepNestedError".toList
        (.mk "Level 3 error".toList (some (.mk "Level 2 error".toList
          (some (.mk "Level 1 error".toList none))))) =
      some (.mk "my_crate::DeepNestedError".toList "Level 3 error".toList
        (some (.mk "&dyn Error".toList "Level 2 error".toList
          (some (.mk "&dyn Error".toList "Level 1 error".toList none))))) ∧
    (AnyError.mk "my_crate::DeepNestedError".toList "Level 3 error".toList
        (some (.mk "&dyn Error".toList "Level 2 error".toList
          (some (.mk "&dyn Error".toList "Level 1 error".toList
            none))))).nodeCount = 3 ∧
    (AnyError.mk "my_crate::DeepNestedError".toList "Level 3 error".toList
        (some (.mk "&dyn Error".toList "Level 2 error".toList
          (some (.mk "&dyn Error".toList "Level 1 error".toList
            none))))).depth = 2 ∧
    (AnyError.mk "my_crate::DeepNestedError".toList "Level 3 error".toList
        (some (.mk "&dyn Error".toList "Level 2 error".toList
          (some (.mk "&dyn Error".toList "Level 1 error".toList
            none))))).messages =
      ["Level 3 error".toList, "Level 2 error".toList,
        "Level 1 error".toList] := by
  refine ⟨rfl, ?_⟩
  have h3 := from_preserves_chain_length "my_crate::DeepNestedError".toList
    (.mk "Level 3 error".toList (some (.mk "Level 2 error".toList
      (some (.mk "Level 1 error".toList none)))))
    (.mk "my_crate::DeepNestedError".toList "Level 3 error".toList
      (some (.mk "&dyn Error".toList "Level 2 error".toList
        (some (.mk "&dyn Error".toList "Level 1 error".toList none))))) rfl
  simpa [SourceError.chainLen, SourceError.messages] using h3

/-- **C9** (confirmed).  Every node below the root of a converted chain
carries one constant type string: the canonicalization of the reflective name
of `&dyn Error`, which is `"&dyn Error"` — not the canonical name of the
cause's concrete type. -/
theorem non_root_nodes_have_dyn_error_type :
    ∀ (tyName : List Char) (e : SourceError) (t : AnyError),
      anyErrorFrom tyName e = some t →
      (∀ c ∈ t.descendants, some c.ty = processTypeName refDynErrorName) ∧
        processTypeName refDynErrorName = some "&dyn Error".toList
  | tyName, .mk msg none, t, h => by
    cases hp : processTypeName tyName with
    | none => simp [anyErrorFrom, hp] at h
    | some ty =>
      simp only [anyErrorFrom, hp] at h
      cases h
      exact ⟨fun c hc => absurd hc (by simp [AnyError.descendants]), rfl⟩
  | tyName, .mk msg (some s), t, h => by
    cases hp : processTypeName tyName with
    | none => simp [anyErrorFrom, hp] at h
    | some ty =>
      simp only [anyErrorFrom, hp] at h
      cases hin : anyErrorFrom refDynErrorName s with
      | none => rw [hin] at h; cases h
      | some inner =>
        rw [hin] at h
        cases h
        obtain ⟨h1, h2⟩ := non_root_nodes_have_dyn_error_type refDynErrorName s inner hin
        refine ⟨?_, rfl⟩
        intro c hc
        simp only [AnyError.descendants, List.mem_cons] at hc
        rcases hc with rfl | hc
        · exact (anyErrorFrom_ty refDynErrorName s c hin).symm
        · exact h1 c hc

/-- Witness for `non_root_nodes_have_dyn_error_type` at a concrete two-level
chain. -/
theorem non_root_nodes_have_dyn_error_type_witness :
    anyErrorFrom "my_crate::NestedError".toList
        (.mk "outer".toList (some (.mk "inner".toList none))) =
      some (.mk "my_crate::NestedError".toList "outer".toList
        (some (.mk "&dyn Error".toList "inner".toList none))) ∧
    some (AnyError.mk "&dyn Error".toList "inner".toList none).ty =
      processTypeName refDynErrorName :=
  ⟨rfl, (non_root_nodes_have_dyn_error_type "my_crate::NestedError".toList
    (.mk "outer".toList (some (.mk "inner".toList none)))
    (.mk "my_crate::NestedError".toList "outer".toList
      (some (.mk "&dyn Error".toList "inner".toList none))) rfl).1
    (.mk "&dyn Error".toList "inner".toList none)
    (by simp [AnyError.descendants])⟩

/-! ## Claim theorems: the JSON codec -/

/-- Encoding always produces a JSON object. -/
theorem encode_isObj (t : AnyError) : ∃ hs, encodeAnyError t = Json.jobj hs := by
  obtain ⟨ty, msg, child⟩ := t
  cases child with
  | none => exact ⟨_, rfl⟩
  | some c => exact ⟨_, rfl⟩

/-- One decoding step on an encoded-shaped object whose `innerError` is a
nested object. -/
theorem decode_step_obj (f : Nat) (ty msg : List Char) (hs : List (List Char × Json)) :
    decodeAnyErrorF (f + 1) (Json.jobj [("$type".toList, Json.jstr ty),
      ("context".toList, Json.jobj [("message".toList, Json.jstr msg),
        ("innerError".toList, Json.jobj hs)])]) =
    match decodeAnyErrorF f (Json.jobj hs) with
    | .error e => .error e
    | .ok t => .ok (.mk ty msg (some t)) := by
  have e1 : decodeAnyErrorF (f + 1) (Json.jobj [("$type".toList, Json.jstr ty),
      ("context".toList, Json.jobj [("message".toList, Json.jstr msg),
        ("innerError".toList, Json.jobj hs)])]) =
      match decodeCtxF (decodeAnyErrorF f)
          (Json.jobj [("message".toList, Json.jstr msg),
            ("innerError".toList, Json.jobj hs)]) with
      | .error e => .error e
      | .ok (m, inner) => .ok (.mk ty m inner) := rfl
  have e2 : decodeCtxF (decodeAnyErrorF f)
      (Json.jobj [("message".toList, Json.jstr msg),
        ("innerError".toList, Json.jobj hs)]) =
      match decodeInnerF (decodeAnyErrorF f) (Json.jobj hs) with
      | .error e => .error e
      | .ok inner => .ok (msg, inner) := rfl
  have e3 : decodeInnerF (decodeAnyErrorF f) (Json.jobj hs) =
      match decodeAnyErrorF f (Json.jobj hs) with
      | .error e => .error e
      | .ok t => .ok (some t) := rfl
  rw [e1, e2, e3]
  cases decodeAnyErrorF f (Json.jobj hs) with
  | error e => rfl
  | ok t => rfl

/-- **C4** (confirmed).  Decoding the encoding of any `AnyError` tree
succeeds and returns a structurally equal tree (at any decoder fuel
exceeding the tree's nesting depth; the recursion consumes one unit of fuel
per `innerError` level). -/
theorem decode_encode_roundtrip :
    ∀ (t : AnyError) (f : Nat), t.depth < f →
      decodeAnyErrorF f (encodeAnyError t) = .ok t
  | t, 0, h => absurd h (Nat.not_lt_zero _)
  | .mk ty msg none, f + 1, _ => rfl
  | .mk ty msg (some c), f + 1, h => by
    have hd : c.depth < f := by
      simpa [AnyError.depth, Nat.succ_lt_succ_iff] using h
    have ih := decode_encode_roundtrip c f hd
    obtain ⟨hs, hhs⟩ := encode_isObj c
    have henc : encodeAnyError (.mk ty msg (some c)) =
        Json.jobj [("$type".toList, Json.jstr ty),
          ("context".toList, Json.jobj [("message".toList, Json.jstr msg),
            ("innerError".toList, encodeAnyError c)])] := rfl
    rw [henc, hhs, decode_step_obj, ← hhs, ih]

/-- Witness for `decode_encode_roundtrip` at a concrete two-node tree. -/
theorem decode_encode_roundtrip_witness :
    decodeAnyErrorF 3 (encodeAnyError (.mk "E".toList "m".toList
      (some (.mk "F".toList "n".toList none)))) =
    .ok (.mk "E".toList "m".toList (some (.mk "F".toList "n".toList none))) :=
  decode_encode_roundtrip (.mk "E".toList "m".toList
    (some (.mk "F".toList "n".toList none))) 3 (by decide)

/-- Propagating `innerIsOk` through the `Some`-wrapping match of
`decodeInnerF`. -/
theorem innerIsOk_map (x : Except (List Char) AnyError) :
    innerIsOk (match x with
      | .error e => Except.error e
      | .ok t => Except.ok (some t)) = exceptIsOk x := by
  cases x <;> rfl

/-- A successful `Option<Box<AnyError>>` decode pins down its input: `null`,
or a value on which the `AnyError` deserializer itself succeeds. -/
theorem inner_ok_shape (r : Json → Except (List Char) AnyError) (w : Json)
    (h : innerIsOk (decodeInnerF r w) = true) :
    w = Json.null ∨ exceptIsOk (r w) = true := by
  cases w with
  | null => exact Or.inl rfl
  | jbool b => exact Or.inr ((innerIsOk_map (r (Json.jbool b))).symm.trans h)
  | jnum n => exact Or.inr ((innerIsOk_map (r (Json.jnum n))).symm.trans h)
  | jstr s => exact Or.inr ((innerIsOk_map (r (Json.jstr s))).symm.trans h)
  | jarr es => exact Or.inr ((innerIsOk_map (r (Json.jarr es))).symm.trans h)
  | jobj fs => exact Or.inr ((innerIsOk_map (r (Json.jobj fs))).symm.trans h)

/-- A successful `AnyErrorContext` decode pins down the shape of its input:
an object with a string `message` and an absent or decodable `innerError`, or
the positional array form with the same two components. -/
theorem ctx_ok_shape (r : Json → Except (List Char) AnyError) (v : Json)
    (h : ctxIsOk (decodeCtxF r v) = true) :
    (∃ gs msg, v = .jobj gs ∧
      findKey "message".toList gs = some (.jstr msg) ∧
      (findKey "innerError".toList gs = none ∨
        ∃ w, findKey "innerError".toList gs = some w ∧
          innerIsOk (decodeInnerF r w) = true)) ∨
    (∃ msg iv, v = .jarr [.jstr msg, iv] ∧
      innerIsOk (decodeInnerF r iv) = true) := by
  cases v with
  | null => exact Bool.noConfusion h
  | jbool b => exact Bool.noConfusion h
  | jnum n => exact Bool.noConfusion h
  | jstr s => exact Bool.noConfusion h
  | jobj gs =>
    simp only [decodeCtxF] at h
    split at h
    · exact Bool.noConfusion h
    · split at h
      · exact Bool.noConfusion h
      · split at h
        case h_1 => exact Bool.noConfusion h
        case h_2 msg hmsg =>
          split at h
          case h_1 hinn => exact Or.inl ⟨gs, msg, rfl, hmsg, Or.inl hinn⟩
          case h_2 w hw =>
            split at h
            case h_1 e he => exact Bool.noConfusion h
            case h_2 inner hi =>
              exact Or.inl ⟨gs, msg, rfl, hmsg, Or.inr ⟨w, hw, by rw [hi]; rfl⟩⟩
        case h_3 => exact Bool.noConfusion h
  | jarr es =>
    cases es with
    | nil => exact Bool.noConfusion h
    | cons mv rest =>
      cases rest with
      | nil => exact Bool.noConfusion h
      | cons iv rest2 =>
        cases rest2 with
        | cons x rest3 => exact Bool.noConfusion h
        | nil =>
          cases mv with
          | null => exact Bool.noConfusion h
          | jbool b => exact Bool.noConfusion h
          | jnum n => exact Bool.noConfusion h
          | jarr es2 => exact Bool.noConfusion h
          | jobj gs2 => exact Bool.noConfusion h
          | jstr msg =>
            have e1 : decodeCtxF r (.jarr [.jstr msg, iv]) =
                match decodeInnerF r iv with
                | .error e => .error e
                | .ok inner => .ok (msg, inner) := rfl
            rw [e1] at h
            cases hi : decodeInnerF r iv with
            | error e => rw [hi] at h; exact Bool.noConfusion h
            | ok inner => exact Or.inr ⟨msg, iv, rfl, by rw [hi]; rfl⟩

/-- A successful `AnyError` decode pins down the shape of the payload: an
object with a string `$type` and a decodable `context`, or the positional
array form with the same two components. -/
theorem decode_ok_shape (f : Nat) (j : Json)
    (h : exceptIsOk (decodeAnyErrorF (f + 1) j) = true) :
    (∃ fs ty cv, j = .jobj fs ∧
      findKey "$type".toList fs = some (.jstr ty) ∧
      findKey "context".toList fs = some cv ∧
      ctxIsOk (decodeCtxF (decodeAnyErrorF f) cv) = true) ∨
    (∃ ty cv, j = .jarr [.jstr ty, cv] ∧
      ctxIsOk (decodeCtxF (decodeAnyErrorF f) cv) = true) := by
  cases j with
  | null => exact Bool.noConfusion h
  | jbool b => exact Bool.noConfusion h
  | jnum n => exact Bool.noConfusion h
  | jstr s => exact Bool.noConfusion h
  | jobj fs =>
    simp only [decodeAnyErrorF] at h
    split at h
    · exact Bool.noConfusion h
    · split at h
      · exact Bool.noConfusion h
      · split at h
        case h_1 => exact Bool.noConfusion h
        case h_2 ty hty =>
          split at h
          case h_1 => exact Bool.noConfusion h
          case h_2 cv hcv =>
            split at h
            case h_1 e he => exact Bool.noConfusion h
            case h_2 m inner hp =>
              exact Or.inl ⟨fs, ty, cv, rfl, hty, hcv, by rw [hp]; rfl⟩
        case h_3 => exact Bool.noConfusion h
  | jarr es =>
    cases es with
    | nil => exact Bool.noConfusion h
    | cons tv rest =>
      cases rest with
      | nil => exact Bool.noConfusion h
      | cons cv rest2 =>
        cases rest2 with
        | cons x rest3 => exact Bool.noConfusion h
        | nil =>
          cases tv with
          | null => exact Bool.noConfusion h
          | jbool b => exact Bool.noConfusion h
          | jnum n => exact Bool.noConfusion h
          | jarr es2 => exact Bool.noConfusion h
          | jobj fs2 => exact Bool.noConfusion h
          | jstr ty =>
            have e1 : decodeAnyErrorF (f + 1) (.jarr [.jstr ty, cv]) =
                match decodeCtxF (decodeAnyErrorF f) cv with
                | .error e => .error e
                | .ok (msg, inner) => .ok (.mk ty msg inner) := rfl
            rw [e1] at h
            cases hc : decodeCtxF (decodeAnyErrorF f) cv with
            | error e => rw [hc] at h; exact Bool.noConfusion h
            | ok p => exact Or.inr ⟨ty, cv, rfl, by rw [hc]; rfl⟩

mutual
/-- Every `Malformed` payload fails to decode as an `AnyError`, at every
fuel (by mutual induction with `malformedCtx_err` on the malformedness
derivation). -/
theorem malformed_err : ∀ (j : Json), Malformed j →
    ∀ f, exceptIsOk (decodeAnyErrorF f j) = false
  | j, .notStruct _ ho ha, f => by
    cases f with
    | zero => rfl
    | succ f =>
      cases hok : exceptIsOk (decodeAnyErrorF (f + 1) j) with
      | false => rfl
      | true =>
        rcases decode_ok_shape f j hok with ⟨fs, ty, cv, hj, _, _, _⟩ | ⟨ty, cv, hj, _⟩
        · exact absurd hj (ho fs)
        · exact absurd hj (ha [Json.jstr ty, cv])
  | _, .missingType fs h1, f => by
    cases f with
    | zero => rfl
    | succ f =>
      cases hok : exceptIsOk (decodeAnyErrorF (f + 1) (Json.jobj fs)) with
      | false => rfl
      | true =>
        rcases decode_ok_shape f _ hok with ⟨fs2, ty, cv, hj, hty, _, _⟩ | ⟨ty, cv, hj, _⟩
        · cases Json.jobj.inj hj
          rw [h1] at hty
          exact Option.noConfusion hty
        · exact Json.noConfusion hj
  | _, .wrongType fs v h1 hv, f => by
    cases f with
    | zero => rfl
    | succ f =>
      cases hok : exceptIsOk (decodeAnyErrorF (f + 1) (Json.jobj fs)) with
      | false => rfl
      | true =>
        rcases decode_ok_shape f _ hok with ⟨fs2, ty, cv, hj, hty, _, _⟩ | ⟨ty, cv, hj, _⟩
        · cases Json.jobj.inj hj
          rw [h1] at hty
          exact absurd (Option.some.inj hty) (hv ty)
        · exact Json.noConfusion hj
  | _, .missingContext fs h1, f => by
    cases f with
    | zero => rfl
    | succ f =>
      cases hok : exceptIsOk (decodeAnyErrorF (f + 1) (Json.jobj fs)) with
      | false => rfl
      | true =>
        rcases decode_ok_shape f _ hok with ⟨fs2, ty, cv, hj, _, hcv, _⟩ | ⟨ty, cv, hj, _⟩
        · cases Json.jobj.inj hj
          rw [h1] at hcv
          exact Option.noConfusion hcv
        · exact Json.noConfusion hj
  | _, .badContext fs v h1 hm, f => by
    cases f with
    | zero => rfl
    | succ f =>
      cases hok : exceptIsOk (decodeAnyErrorF (f + 1) (Json.jobj fs)) with
      | false => rfl
      | true =>
        rcases decode_ok_shape f _ hok with ⟨fs2, ty, cv, hj, _, hcv, hcok⟩ | ⟨ty, cv, hj, _⟩
        · cases Json.jobj.inj hj
          rw [h1] at hcv
          cases Option.some.inj hcv
          rw [malformedCtx_err v hm f] at hcok
          exact Bool.noConfusion hcok
        · exact Json.noConfusion hj
  | _, .seqLen es h1, f => by
    cases f with
    | zero => rfl
    | succ f =>
      cases hok : exceptIsOk (decodeAnyErrorF (f + 1) (Json.jarr es)) with
      | false => rfl
      | true =>
        rcases decode_ok_shape f _ hok with ⟨fs2, ty, cv, hj, _, _, _⟩ | ⟨ty, cv, hj, _⟩
        · exact Json.noConfusion hj
        · exact absurd (show es.length = 2 by rw [Json.jarr.inj hj]; rfl) h1
  | _, .seqType tv cv hv, f => by
    cases f with
    | zero => rfl
    | succ f =>
      cases hok : exceptIsOk (decodeAnyErrorF (f + 1) (Json.jarr [tv, cv])) with
      | false => rfl
      | true =>
        rcases decode_ok_shape f _ hok with ⟨fs2, ty, cv2, hj, _, _, _⟩ | ⟨ty, cv2, hj, _⟩
        · exact Json.noConfusion hj
        · have h2 := Json.jarr.inj hj
          injection h2 with h3 h4
          exact absurd h3 (hv ty)
  | _, .seqContext tv cv hm, f => by
    cases f with
    | zero => rfl
    | succ f =>
      cases hok : exceptIsOk (decodeAnyErrorF (f + 1) (Json.jarr [tv, cv])) with
      | false => rfl
      | true =>
        rcases decode_ok_shape f _ hok with ⟨fs2, ty, cv2, hj, _, _, _⟩ | ⟨ty, cv2, hj, hcok⟩
        · exact Json.noConfusion hj
        · have h2 := Json.jarr.inj hj
          injection h2 with h3 h4
          injection h4 with h5 h6
          rw [← h5] at hcok
          rw [malformedCtx_err cv hm f] at hcok
          exact Bool.noConfusion hcok
/-- Every `MalformedCtx` value fails to decode as an `AnyErrorContext`,
whatever the fuel of the `AnyError` deserializer passed for the recursive
field. -/
theorem malformedCtx_err : ∀ (v : Json), MalformedCtx v →
    ∀ f, ctxIsOk (decodeCtxF (decodeAnyErrorF f) v) = false
  | v, .ctxNotStruct _ ho ha, f => by
    cases hok : ctxIsOk (decodeCtxF (decodeAnyErrorF f) v) with
    | false => rfl
    | true =>
      rcases ctx_ok_shape _ v hok with ⟨gs, msg, hv, _, _⟩ | ⟨msg, iv, hv, _⟩
      · exact absurd hv (ho gs)
      · exact absurd hv (ha [Json.jstr msg, iv])
  | _, .missingMessage gs h1, f => by
    cases hok : ctxIsOk (decodeCtxF (decodeAnyErrorF f) (Json.jobj gs)) with
    | false => rfl
    | true =>
      rcases ctx_ok_shape _ _ hok with ⟨gs2, msg, hv, hmsg, _⟩ | ⟨msg, iv, hv, _⟩
      · cases Json.jobj.inj hv
        rw [h1] at hmsg
        exact Option.noConfusion hmsg
      · exact Json.noConfusion hv
  | _, .wrongMessage gs v h1 hv1, f => by
    cases hok : ctxIsOk (decodeCtxF (decodeAnyErrorF f) (Json.jobj gs)) with
    | false => rfl
    | true =>
      rcases ctx_ok_shape _ _ hok with ⟨gs2, msg, hv, hmsg, _⟩ | ⟨msg, iv, hv, _⟩
      · cases Json.jobj.inj hv
        rw [h1] at hmsg
        exact absurd (Option.some.inj hmsg) (hv1 msg)
      · exact Json.noConfusion hv
  | _, .badInner gs w h1 hnull hm, f => by
    cases hok : ctxIsOk (decodeCtxF (decodeAnyErrorF f) (Json.jobj gs)) with
    | false => rfl
    | true =>
      rcases ctx_ok_shape _ _ hok with ⟨gs2, msg, hv, _, hinn⟩ | ⟨msg, iv, hv, _⟩
      · cases Json.jobj.inj hv
        rcases hinn with hnone | ⟨w2, hw2, hiok⟩
        · rw [h1] at hnone
          exact Option.noConfusion hnone
        · rw [h1] at hw2
          cases Option.some.inj hw2
          rcases inner_ok_shape _ w hiok with hwnull | hrec
          · exact absurd hwnull hnull
          · rw [malformed_err w hm f] at hrec
            exact Bool.noConfusion hrec
      · exact Json.noConfusion hv
  | _, .ctxSeqLen es h1, f => by
    cases hok : ctxIsOk (decodeCtxF (decodeAnyErrorF f) (Json.jarr es)) with
    | false => rfl
    | true =>
      rcases ctx_ok_shape _ _ hok with ⟨gs2, msg, hv, _, _⟩ | ⟨msg, iv, hv, _⟩
      · exact Json.noConfusion hv
      · exact absurd (show es.length = 2 by rw [Json.jarr.inj hv]; rfl) h1
  | _, .ctxSeqMessage mv iv hv1, f => by
    cases hok : ctxIsOk (decodeCtxF (decodeAnyErrorF f) (Json.jarr [mv, iv])) with
    | false => rfl
    | true =>
      rcases ctx_ok_shape _ _ hok with ⟨gs2, msg, hv, _, _⟩ | ⟨msg, iv2, hv, _⟩
      · exact Json.noConfusion hv
      · have h2 := Json.jarr.inj hv
        injection h2 with h3 h4
        exact absurd h3 (hv1 msg)
  | _, .ctxSeqInner mv iv hnull hm, f => by
    cases hok : ctxIsOk (decodeCtxF (decodeAnyErrorF f) (Json.jarr [mv, iv])) with
    | false => rfl
    | true =>
      rcases ctx_ok_shape _ _ hok with ⟨gs2, msg, hv, _, _⟩ | ⟨msg, iv2, hv, hiok⟩
      · exact Json.noConfusion hv
      · have h2 := Json.jarr.inj hv
        injection h2 with h3 h4
        injection h4 with h5 h6
        rw [← h5] at hiok
        rcases inner_ok_shape _ iv hiok with hwnull | hrec
        · exact absurd hwnull hnull
        · rw [malformed_err iv hm f] at hrec
          exact Bool.noConfusion hrec
end

/-- **C3** (amended).  Decoding is all-or-nothing on malformed payloads,
where malformedness accounts for both payload shapes serde_json accepts for
a derived struct (a field map, or the positional array of field values):
whenever a required position (`$type`, `context`, `message`) is missing or
non-decodable, or a present non-`null` `innerError` value fails to decode
as a nested payload (at any nesting level), decoding errors — at every
decoder fuel.  (The claim's fourth required field is amended away: a payload
whose `innerError` field is merely *missing* decodes successfully, see
`decode_accepts_missing_inner_error`; and the positional array forms
themselves decode, see `decode_accepts_seq_payload` and
`decode_accepts_seq_context`.) -/
theorem decode_errors_on_malformed (j : Json) (hm : Malformed j) :
    ∀ f, exceptIsOk (decodeAnyErrorF f j) = false :=
  malformed_err j hm

/-- Witness for `decode_errors_on_malformed`: the empty object payload
(missing `$type`) never decodes. -/
theorem decode_errors_on_malformed_witness :
    exceptIsOk (decodeAnyErrorF 1 (Json.jobj [])) = false :=
  decode_errors_on_malformed (Json.jobj []) (Malformed.missingType [] rfl) 1

/-- **C3** (counterexample).  A payload in which the required field
`innerError` is *missing* (not merely `null`) decodes successfully to a
childless node — no decode error is surfaced, against the claim. -/
theorem decode_accepts_missing_inner_error :
    decodeAnyErrorF 1 (Json.jobj [("$type".toList, Json.jstr "TestError".toList),
      ("context".toList, Json.jobj [("message".toList, Json.jstr "Test message".toList)])]) =
    .ok (.mk "TestError".toList "Test message".toList none) :=
  rfl

/-- serde_json's positional struct format decodes: the array payload
`["TestError", ["Test message", null]]` is accepted by the derived
deserializers (struct fields by position, in declaration order). -/
theorem decode_accepts_seq_payload :
    decodeAnyErrorF 1 (Json.jarr [Json.jstr "TestError".toList,
      Json.jarr [Json.jstr "Test message".toList, Json.null]]) =
    .ok (.mk "TestError".toList "Test message".toList none) :=
  rfl

/-- The two formats mix per struct: an object payload whose `context` field
holds the positional array form of `AnyErrorContext` also decodes. -/
theorem decode_accepts_seq_context :
    decodeAnyErrorF 1 (Json.jobj [("$type".toList, Json.jstr "TestError".toList),
      ("context".toList, Json.jarr [Json.jstr "Test message".toList, Json.null])]) =
    .ok (.mk "TestError".toList "Test message".toList none) :=
  rfl

/-! ## Character classes and rendered paths -/

theorem identChar_not_ws {c : Char} (h : c.isWhitespace = true) : identChar c = false := by
  simp only [Char.isWhitespace, Bool.or_eq_true, decide_eq_true_eq] at h
  rcases h with ((rfl | rfl) | rfl) | rfl <;> decide

theorem pathOk_ne_nil {p : List (List Char)} (hp : pathOk p = true) : p ≠ [] := by
  intro h
  subst h
  simp [pathOk] at hp

theorem pathOk_all {p : List (List Char)} (hp : pathOk p = true) :
    ∀ s ∈ p, identOk s = true := by
  simp only [pathOk, Bool.and_eq_true, List.all_eq_true] at hp
  exact hp.2

theorem identOk_ne_nil {s : List Char} (hs : identOk s = true) : s ≠ [] := by
  intro h
  subst h
  simp [identOk] at hs

theorem identOk_all {s : List Char} (hs : identOk s = true) :
    ∀ c ∈ s, identChar c = true := by
  simp only [identOk, Bool.and_eq_true, List.all_eq_true] at hs
  exact hs.2

theorem pathOk_cons_of {a : List Char} {p : List (List Char)}
    (ha : identOk a = true) (hp : ∀ s ∈ p, identOk s = true) :
    pathOk (a :: p) = true := by
  simp only [pathOk, Bool.and_eq_true, List.all_eq_true]
  refine ⟨by simp, ?_⟩
  intro s hs
  rcases List.mem_cons.mp hs with rfl | hs
  · exact ha
  · exact hp s hs

theorem renderPath_chars {p : List (List Char)} (hp : ∀ s ∈ p, identOk s = true) :
    ∀ c ∈ renderPath p, identChar c = true ∨ c = ':' := by
  induction p with
  | nil => intro c hc; cases hc
  | cons a q ih =>
    cases q with
    | nil =>
      intro c hc
      exact Or.inl (identOk_all (hp a (by simp)) c hc)
    | cons b r =>
      intro c hc
      rw [renderPath] at hc
      rcases List.mem_append.mp hc with hc | hc
      · exact Or.inl (identOk_all (hp a (by simp)) c hc)
      · rcases List.mem_cons.mp hc with rfl | hc
        · exact Or.inr rfl
        · rcases List.mem_cons.mp hc with rfl | hc
          · exact Or.inr rfl
          · exact ih (fun s hs => hp s (List.mem_cons_of_mem a hs)) c hc

theorem renderPath_head_ident {p : List (List Char)} (hp : pathOk p = true) :
    ∃ a t, renderPath p = a :: t ∧ identChar a = true := by
  cases p with
  | nil => exact absurd rfl (pathOk_ne_nil hp)
  | cons i q =>
    have hi : identOk i = true := pathOk_all hp i (by simp)
    obtain ⟨c, ci, rfl⟩ : ∃ c ci, i = c :: ci := by
      cases i with
      | nil => exact absurd rfl (identOk_ne_nil hi)
      | cons c ci => exact ⟨c, ci, rfl⟩
    have hc : identChar c = true := identOk_all hi c (by simp)
    cases q with
    | nil => exact ⟨c, ci, rfl, hc⟩
    | cons b r => exact ⟨c, ci ++ ':' :: ':' :: renderPath (b :: r), rfl, hc⟩

theorem renderPath_ne_nil {p : List (List Char)} (hp : pathOk p = true) :
    renderPath p ≠ [] := by
  obtain ⟨a, t, heq, _⟩ := renderPath_head_ident hp
  rw [heq]
  exact List.cons_ne_nil a t

theorem not_mem_renderPath {p : List (List Char)} (hp : pathOk p = true)
    (x : Char) (hx : identChar x = false) (hx2 : x ≠ ':') :
    x ∉ renderPath p := by
  intro hmem
  rcases renderPath_chars (pathOk_all hp) x hmem with h | h
  · rw [hx] at h; cases h
  · exact hx2 h

theorem startsWith_false_of_head {x c : Char} (xs cs : List Char) (h : x ≠ c) :
    startsWithStr (x :: xs) (c :: cs) = false := by
  simp only [startsWithStr, List.isPrefixOf, Bool.and_eq_false_iff]
  left
  simpa using h

theorem startsWith_false_of_mem {pat s : List Char} (x : Char)
    (hx : x ∈ pat) (hns : x ∉ s) : startsWithStr pat s = false := by
  cases hsw : startsWithStr pat s with
  | false => rfl
  | true => exact absurd (mem_of_isPrefixOf pat s hsw x hx) hns

theorem containsStr_mem {pat s : List Char} (h : containsStr pat s = true) :
    ∀ c ∈ pat, c ∈ s := by
  induction s with
  | nil =>
    rw [containsStr] at h
    intro c hc
    exact absurd (mem_of_isPrefixOf pat [] h c hc) (by simp)
  | cons b bs ih =>
    rw [containsStr, Bool.or_eq_true] at h
    intro c hc
    rcases h with h | h
    · exact mem_of_isPrefixOf pat (b :: bs) h c hc
    · exact List.mem_cons_of_mem b (ih h c hc)

theorem containsStr_false_of_not_mem {pat s : List Char} (x : Char)
    (hx : x ∈ pat) (hns : x ∉ s) : containsStr pat s = false := by
  cases hcs : containsStr pat s with
  | false => rfl
  | true => exact absurd (containsStr_mem hcs x hx) hns

theorem posFind_eq_none_of_not_mem {c : Char} {s : List Char} (h : c ∉ s) :
    posFind c s = none := by
  induction s with
  | nil => rfl
  | cons b bs ih =>
    rw [posFind, if_neg (by intro hbc; rw [← hbc] at h; exact h (List.mem_cons_self b bs)),
      ih (fun hc => h (List.mem_cons_of_mem b hc))]
    rfl

theorem posFind_append_first {c : Char} {a : List Char} (h : c ∉ a) (t : List Char) :
    posFind c (a ++ c :: t) = some a.length := by
  induction a with
  | nil => simp [posFind]
  | cons b bs ih =>
    rw [List.cons_append, posFind,
      if_neg (by intro hbc; rw [← hbc] at h; exact h (List.mem_cons_self b bs)),
      ih (fun hc => h (List.mem_cons_of_mem b hc))]
    rfl

/-! ## Splitting rendered paths on `::` -/

theorem splitOnStrF_congr (pat : List Char) :
    ∀ (f g : Nat) (s acc : List Char), s.length < f → s.length < g →
      splitOnStrF pat f s acc = splitOnStrF pat g s acc := by
  intro f
  induction f with
  | zero => intro g s acc hf; exact absurd hf (Nat.not_lt_zero _)
  | succ f ih =>
    intro g s acc hf hg
    cases g with
    | zero => exact absurd hg (Nat.not_lt_zero _)
    | succ g =>
      cases s with
      | nil => rfl
      | cons c rest =>
        simp only [splitOnStrF]
        by_cases hpre : List.isPrefixOf pat (c :: rest) = true
        · rw [if_pos hpre, if_pos hpre,
            ih g (rest.drop (pat.length - 1)) []
              (by
                have := List.length_drop (pat.length - 1) rest
                simp only [List.length_cons] at hf
                omega)
              (by
                have := List.length_drop (pat.length - 1) rest
                simp only [List.length_cons] at hg
                omega)]
        · rw [if_neg hpre, if_neg hpre,
            ih g rest (c :: acc)
              (by simp only [List.length_cons] at hf; omega)
              (by simp only [List.length_cons] at hg; omega)]

theorem splitOnStrF_no_occ (pat : List Char) :
    ∀ (s : List Char), containsStr pat s = false →
      ∀ (f : Nat) (acc : List Char), s.length < f →
        splitOnStrF pat f s acc = [acc.reverse ++ s] := by
  intro s
  induction s with
  | nil =>
    intro _ f acc hf
    cases f with
    | zero => exact absurd hf (Nat.not_lt_zero _)
    | succ f => simp [splitOnStrF]
  | cons c rest ih =>
    intro hno f acc hf
    rw [containsStr, Bool.or_eq_false_iff] at hno
    cases f with
    | zero => exact absurd hf (Nat.not_lt_zero _)
    | succ f =>
      simp only [splitOnStrF]
      rw [if_neg (by rw [hno.1]; exact Bool.false_ne_true),
        ih hno.2 f (c :: acc) (by simp only [List.length_cons] at hf; omega)]
      simp

theorem splitOnStrF_break (x : Char) (xs : List Char) :
    ∀ (a : List Char), x ∉ a →
      ∀ (s : List Char) (f : Nat) (acc : List Char),
        (a ++ (x :: xs) ++ s).length < f →
        splitOnStrF (x :: xs) f (a ++ (x :: xs) ++ s) acc =
          (acc.reverse ++ a) :: splitOnStr (x :: xs) s := by
  intro a
  induction a with
  | nil =>
    intro _ s f acc hf
    cases f with
    | zero => exact absurd hf (Nat.not_lt_zero _)
    | succ f =>
      simp only [List.nil_append, List.cons_append, splitOnStrF]
      have hpre : List.isPrefixOf (x :: xs) (x :: (xs ++ s)) = true := by
        have h0 := isPrefixOf_append_self (x :: xs) s
        simp only [List.cons_append] at h0
        exact h0
      rw [if_pos hpre]
      have hdrop : (xs ++ s).drop ((x :: xs).length - 1) = s := by
        simp only [List.length_cons, Nat.add_sub_cancel]
        exact List.drop_left xs s
      rw [hdrop]
      have hlen : s.length < f := by
        simp only [List.append_assoc, List.length_append, List.length_cons] at hf
        omega
      rw [splitOnStrF_congr (x :: xs) f (s.length + 1) s [] hlen (Nat.lt_succ_self _)]
      simp [splitOnStr]
  | cons c a2 ih =>
    intro hx s f acc hf
    cases f with
    | zero => exact absurd hf (Nat.not_lt_zero _)
    | succ f =>
      have hxc : x ≠ c := fun h => hx (h ▸ List.mem_cons_self c a2)
      simp only [List.cons_append, splitOnStrF]
      rw [if_neg (by
        simp only [List.isPrefixOf, Bool.and_eq_true, beq_iff_eq]
        intro hcontra
        exact hxc hcontra.1)]
      rw [ih (fun h => hx (List.mem_cons_of_mem c h)) s f (c :: acc)
        (by simp only [List.cons_append, List.length_cons] at hf; omega)]
      simp

theorem splitOnStr_renderPath {p : List (List Char)} (hp : pathOk p = true) :
    splitOnStr "::".toList (renderPath p) = p := by
  have hcl : "::".toList = ':' :: [':'] := rfl
  induction p with
  | nil => exact absurd rfl (pathOk_ne_nil hp)
  | cons a q ih =>
    have ha : identOk a = true := pathOk_all hp a (by simp)
    have hcolon : ':' ∉ a := by
      intro hmem
      have := identOk_all ha ':' hmem
      simp [identChar] at this
    cases q with
    | nil =>
      have hno : containsStr "::".toList (renderPath [a]) = false :=
        containsStr_false_of_not_mem ':' (by rw [hcl]; simp)
          (by rw [renderPath]; exact hcolon)
      rw [splitOnStr, splitOnStrF_no_occ "::".toList (renderPath [a]) hno _ []
        (Nat.lt_succ_self _)]
      simp [renderPath]
    | cons b r =>
      have hq : pathOk (b :: r) = true :=
        pathOk_cons_of (pathOk_all hp b (by simp))
          (fun s hs => pathOk_all hp s (by simp [hs]))
      have hrp : renderPath (a :: b :: r) = a ++ (':' :: [':']) ++ renderPath (b :: r) := by
        rw [renderPath]
        simp
      rw [splitOnStr, hcl, hrp]
      rw [splitOnStrF_break ':' [':'] a hcolon (renderPath (b :: r)) _ []
        (Nat.lt_succ_self _)]
      have htail : splitOnStr (':' :: [':']) (renderPath (b :: r)) = b :: r := ih hq
      rw [htail]
      simp

theorem renderPath_inj {p q : List (List Char)} (hp : pathOk p = true)
    (hq : pathOk q = true) (h : renderPath p = renderPath q) : p = q := by
  have h1 := splitOnStr_renderPath hp
  have h2 := splitOnStr_renderPath hq
  rw [← h1, ← h2, h]

/-! ## `process_base_type` on well-formed paths -/

theorem isPrefixOf_of_append_left {a b s : List Char}
    (h : List.isPrefixOf (a ++ b) s = true) : List.isPrefixOf a s = true := by
  induction a generalizing s with
  | nil => simp [List.isPrefixOf]
  | cons x a2 ih =>
    cases s with
    | nil => simp [List.isPrefixOf] at h
    | cons y t =>
      simp only [List.cons_append, List.isPrefixOf, Bool.and_eq_true] at h ⊢
      exact ⟨h.1, ih h.2⟩

theorem take_eq_of_isPrefixOf {a s : List Char}
    (h : List.isPrefixOf a s = true) : s.take a.length = a := by
  induction a generalizing s with
  | nil => simp
  | cons x a2 ih =>
    cases s with
    | nil => simp [List.isPrefixOf] at h
    | cons y t =>
      simp only [List.isPrefixOf, Bool.and_eq_true, beq_iff_eq] at h
      obtain ⟨rfl, h2⟩ := h
      simp [List.take, ih h2]

theorem startsWith_root_iff {w : List Char} {p : List (List Char)}
    (hw : ∀ c ∈ w, identChar c = true) (hwne : w ≠ []) (hp : pathOk p = true) :
    (startsWithStr (w ++ ':' :: [':']) (renderPath p) = true ↔
      2 ≤ p.length ∧ p.head? = some w) := by
  constructor
  · intro h
    rw [startsWithStr] at h
    cases p with
    | nil => exact absurd rfl (pathOk_ne_nil hp)
    | cons i q =>
      have hiOk : identOk i = true := pathOk_all hp i (by simp)
      cases q with
      | nil =>
        -- renderPath [i] = i has no colon, but the prefix puts one inside it
        exfalso
        have hcolon : ':' ∈ renderPath [i] :=
          mem_of_isPrefixOf _ _ h ':' (by simp)
        rw [renderPath] at hcolon
        have := identOk_all hiOk ':' hcolon
        simp [identChar] at this
      | cons b r =>
        have hrp : renderPath (i :: b :: r) = i ++ ':' :: ':' :: renderPath (b :: r) :=
          rfl
        rcases Nat.lt_trichotomy w.length i.length with hlen | hlen | hlen
        · -- w shorter than i: the colon at position w.length lands inside i
          exfalso
          have hg := get?_of_isPrefixOf _ _ h w.length (by simp)
          have hleft : (renderPath (i :: b :: r)).get? w.length = i.get? w.length := by
            rw [hrp, List.get?_append hlen]
          have hright : (w ++ ':' :: [':']).get? w.length = some ':' := by
            rw [List.get?_append_right (Nat.le_refl _)]
            simp
          have hc := List.get?_eq_get hlen
          rw [hleft, hright, hc] at hg
          have heq := Option.some.inj hg
          have hmem := List.get_mem i w.length hlen
          rw [heq] at hmem
          have := identOk_all hiOk ':' hmem
          simp [identChar] at this
        · -- equal length: w = i
          have : (renderPath (i :: b :: r)).take w.length = w :=
            take_eq_of_isPrefixOf (isPrefixOf_of_append_left h)
          rw [hrp, hlen, List.take_left] at this
          exact ⟨by simp, by simp [this]⟩
        · -- w longer than i: position i.length of the path is a colon inside w
          exfalso
          have hg := get?_of_isPrefixOf _ _ h i.length (by simp; omega)
          have hleft : (renderPath (i :: b :: r)).get? i.length = some ':' := by
            rw [hrp, List.get?_append_right (Nat.le_refl _)]
            simp
          have hright : (w ++ ':' :: [':']).get? i.length = w.get? i.length := by
            rw [List.get?_append hlen]
          have hc := List.get?_eq_get hlen
          rw [hleft, hright, hc] at hg
          have heq := Option.some.inj hg
          have hmem := List.get_mem w i.length hlen
          rw [← heq] at hmem
          have := hw ':' hmem
          simp [identChar] at this
  · rintro ⟨hlen, hhead⟩
    cases p with
    | nil => cases hhead
    | cons i q =>
      have hi : i = w := by simpa using hhead
      subst hi
      cases q with
      | nil => simp at hlen
      | cons b r =>
        rw [startsWithStr, renderPath]
        have : i ++ ':' :: ':' :: renderPath (b :: r) =
            (i ++ ':' :: [':']) ++ renderPath (b :: r) := by simp
        rw [this]
        exact isPrefixOf_append_self _ _

theorem getLast?_some_of_ne_nil {α : Type} {l : List α} (h : l ≠ []) :
    ∃ x, l.getLast? = some x := by
  induction l with
  | nil => exact absurd rfl h
  | cons a q ih =>
    cases q with
    | nil => exact ⟨a, rfl⟩
    | cons b r =>
      obtain ⟨x, hx⟩ := ih (List.cons_ne_nil b r)
      exact ⟨x, by rw [List.getLast?_cons_cons, hx]⟩

theorem mem_of_getLast?_eq {α : Type} {l : List α} {x : α}
    (h : l.getLast? = some x) : x ∈ l := by
  induction l with
  | nil => cases h
  | cons a q ih =>
    cases q with
    | nil =>
      simp only [List.getLast?_singleton, Option.some.injEq] at h
      simp [h]
    | cons b r =>
      rw [List.getLast?_cons_cons] at h
      exact List.mem_cons_of_mem a (ih h)

theorem processBaseTail_path {p : List (List Char)} (hp : pathOk p = true) :
    processBaseTail (renderPath p) = renderPath (canonPath p) := by
  by_cases h0 : p = ["std".toList, "error".toList, "Error".toList]
  · subst h0; rfl
  by_cases h1 : p = ["core".toList, "fmt".toList, "Debug".toList]
  · subst h1; rfl
  by_cases h2 : p = ["core".toList, "fmt".toList, "Display".toList]
  · subst h2; rfl
  by_cases h3 : p = ["core".toList, "any".toList, "Any".toList]
  · subst h3; rfl
  have hnel : renderPath p ≠ "core::fmt::Debug".toList := fun heq =>
    h1 (renderPath_inj hp (by decide) (heq.trans rfl))
  have hne2 : renderPath p ≠ "core::fmt::Display".toList := fun heq =>
    h2 (renderPath_inj hp (by decide) (heq.trans rfl))
  have hne3 : renderPath p ≠ "core::any::Any".toList := fun heq =>
    h3 (renderPath_inj hp (by decide) (heq.trans rfl))
  have hstd : startsWithStr "std::".toList (renderPath p) = true ↔
      2 ≤ p.length ∧ p.head? = some "std".toList :=
    startsWith_root_iff (w := "std".toList) (by decide) (by decide) hp
  have hcore : startsWithStr "core::".toList (renderPath p) = true ↔
      2 ≤ p.length ∧ p.head? = some "core".toList :=
    startsWith_root_iff (w := "core".toList) (by decide) (by decide) hp
  have halloc : startsWithStr "alloc::".toList (renderPath p) = true ↔
      2 ≤ p.length ∧ p.head? = some "alloc".toList :=
    startsWith_root_iff (w := "alloc".toList) (by decide) (by decide) hp
  rw [processBaseTail, if_neg hnel, if_neg hne2, if_neg hne3]
  by_cases hsw : 2 ≤ p.length ∧ (p.head? = some "std".toList ∨
      p.head? = some "core".toList ∨ p.head? = some "alloc".toList)
  · have hor : (startsWithStr "std::".toList (renderPath p) ||
        startsWithStr "core::".toList (renderPath p) ||
        startsWithStr "alloc::".toList (renderPath p)) = true := by
      obtain ⟨hlen, hd⟩ := hsw
      rcases hd with hd | hd | hd
      · rw [hstd.mpr ⟨hlen, hd⟩]; simp
      · rw [hcore.mpr ⟨hlen, hd⟩]; simp
      · rw [halloc.mpr ⟨hlen, hd⟩]; simp
    rw [if_pos hor, splitOnStr_renderPath hp]
    obtain ⟨x, hx⟩ := getLast?_some_of_ne_nil (pathOk_ne_nil hp)
    rw [hx, canonPath, if_neg h0, if_neg h1, if_neg h2, if_neg h3, if_pos hsw, hx]
    rw [renderPath]
  · have hor : (startsWithStr "std::".toList (renderPath p) ||
        startsWithStr "core::".toList (renderPath p) ||
        startsWithStr "alloc::".toList (renderPath p)) = false := by
      have e1 : startsWithStr "std::".toList (renderPath p) = false := by
        cases h : startsWithStr "std::".toList (renderPath p) with
        | false => rfl
        | true =>
          obtain ⟨hlen, hd⟩ := hstd.mp h
          exact absurd ⟨hlen, Or.inl hd⟩ hsw
      have e2 : startsWithStr "core::".toList (renderPath p) = false := by
        cases h : startsWithStr "core::".toList (renderPath p) with
        | false => rfl
        | true =>
          obtain ⟨hlen, hd⟩ := hcore.mp h
          exact absurd ⟨hlen, Or.inr (Or.inl hd)⟩ hsw
      have e3 : startsWithStr "alloc::".toList (renderPath p) = false := by
        cases h : startsWithStr "alloc::".toList (renderPath p) with
        | false => rfl
        | true =>
          obtain ⟨hlen, hd⟩ := halloc.mp h
          exact absurd ⟨hlen, Or.inr (Or.inr hd)⟩ hsw
      rw [e1, e2, e3]
      rfl
    rw [if_neg (by rw [hor]; exact Bool.false_ne_true)]
    rw [canonPath, if_neg h0, if_neg h1, if_neg h2, if_neg h3, if_neg hsw]

theorem processBaseTypeF_path {p : List (List Char)} (hp : pathOk p = true) (f : Nat) :
    processBaseTypeF (f + 1) (renderPath p) = renderPath (canonPath p) := by
  by_cases h0 : p = ["std".toList, "error".toList, "Error".toList]
  · subst h0; rfl
  · have hne : renderPath p ≠ "std::error::Error".toList := fun heq =>
      h0 (renderPath_inj hp (by decide) (heq.trans rfl))
    have hdyn : containsStr "dyn ".toList (renderPath p) = false :=
      containsStr_false_of_not_mem ' ' (by decide)
        (not_mem_renderPath hp ' ' (by decide) (by decide))
    simp only [processBaseTypeF]
    rw [if_neg hne, if_neg (by rw [hdyn]; exact Bool.false_ne_true)]
    exact processBaseTail_path hp

theorem processBaseType_path {p : List (List Char)} (hp : pathOk p = true) :
    processBaseType (renderPath p) = renderPath (canonPath p) :=
  processBaseTypeF_path hp _

/-! ## The generic-argument splitter: index elimination -/

theorem sliceStr_zero (g : List Char) (i : Nat) : sliceStr g i i = [] := by
  simp [sliceStr]

theorem sliceStr_full {g : List Char} {start i : Nat} (hg : g.drop i = [])
    (hs : start ≤ i) : sliceStr g start i = g.drop start := by
  have hgl : g.length ≤ i := by
    have := List.length_drop i g
    rw [hg] at this
    simp at this
    omega
  rw [sliceStr]
  apply List.take_of_length_le
  have := List.length_drop start g
  omega

theorem sliceStr_snoc {g : List Char} {start i : Nat} {c : Char} {rest : List Char}
    (hg : g.drop i = c :: rest) (hs : start ≤ i) :
    sliceStr g start (i + 1) = sliceStr g start i ++ [c] := by
  have hi : i < g.length := by
    by_contra hcon
    rw [List.drop_eq_nil_of_le (Nat.le_of_not_lt hcon)] at hg
    cases hg
  have hget : (g.drop start)[i - start]? = some c := by
    have h1 : (g.drop start).drop (i - start) = g.drop i := by
      rw [List.drop_drop]
      congr 1
      omega
    rw [← List.head?_drop, h1, hg]
    rfl
  rw [sliceStr, sliceStr, show i + 1 - start = (i - start) + 1 by omega,
    List.take_succ, hget]
  rfl

theorem splitGenericsGo_abs (g : List Char) :
    ∀ (l : List Char) (i : Nat) (depth : Int) (start : Nat) (acc : List (List Char)),
      g.drop i = l → start ≤ i →
      splitGenericsGo g l i depth start acc =
        acc.reverse ++ splitGenericsAbs l depth (sliceStr g start i) := by
  intro l
  induction l with
  | nil =>
    intro i depth start acc hg hs
    rw [splitGenericsGo, splitGenericsAbs, sliceStr_full hg hs]
    by_cases h : trimStr (g.drop start) = []
    · rw [if_pos h, if_pos h]
      simp
    · rw [if_neg h, if_neg h]
  | cons c rest ih =>
    intro i depth start acc hg hs
    have hg2 : g.drop (i + 1) = rest := by
      have : g.drop (i + 1) = (g.drop i).drop 1 := by
        rw [List.drop_drop, Nat.add_comm]
      rw [this, hg]
      rfl
    rw [splitGenericsGo, splitGenericsAbs]
    by_cases hlt : c = '<'
    · rw [if_pos hlt, if_pos hlt, ih (i + 1) (depth + 1) start acc hg2 (by omega),
        sliceStr_snoc hg hs]
    · rw [if_neg hlt, if_neg hlt]
      by_cases hgt : c = '>'
      · rw [if_pos hgt, if_pos hgt, ih (i + 1) (depth - 1) start acc hg2 (by omega),
          sliceStr_snoc hg hs]
      · rw [if_neg hgt, if_neg hgt]
        by_cases hcm : c = ',' ∧ depth = 0
        · rw [if_pos hcm, if_pos hcm,
            ih (i + 1) depth (i + 1) (trimStr (sliceStr g start i) :: acc) hg2
              (Nat.le_refl _), sliceStr_zero]
          simp
        · rw [if_neg hcm, if_neg hcm, ih (i + 1) depth start acc hg2 (by omega),
            sliceStr_snoc hg hs]

theorem splitGenerics_abs (g : List Char) :
    splitGenerics g = splitGenericsAbs g 0 [] := by
  rw [splitGenerics, splitGenericsGo_abs g g 0 0 0 [] rfl (Nat.le_refl 0), sliceStr_zero]
  simp

/-! ## Scanning well-formed renders never splits inside them -/

theorem scanStep {c : Char} (hc : c ≠ '<' ∧ c ≠ '>' ∧ c ≠ ',')
    (rest : List Char) (depth : Int) (cur : List Char) :
    splitGenericsAbs (c :: rest) depth cur = splitGenericsAbs rest depth (cur ++ [c]) := by
  rw [splitGenericsAbs, if_neg hc.1, if_neg hc.2.1, if_neg (fun h => hc.2.2 h.1)]

theorem scanPlain {w : List Char} (hw : ∀ c ∈ w, c ≠ '<' ∧ c ≠ '>' ∧ c ≠ ',') :
    ∀ (rest : List Char) (depth : Int) (cur : List Char),
      splitGenericsAbs (w ++ rest) depth cur = splitGenericsAbs rest depth (cur ++ w) := by
  induction w with
  | nil => intro rest depth cur; simp
  | cons c w2 ih =>
    intro rest depth cur
    rw [List.cons_append, scanStep (hw c (by simp)) (w2 ++ rest) depth cur,
      ih (fun x hx => hw x (List.mem_cons_of_mem c hx)) rest depth (cur ++ [c])]
    simp

theorem identChar_plain {c : Char} (h : identChar c = true) :
    c ≠ '<' ∧ c ≠ '>' ∧ c ≠ ',' := by
  refine ⟨?_, ?_, ?_⟩ <;> (rintro rfl; exact absurd h (by decide))

theorem isDigit_plain {c : Char} (h : c.isDigit = true) :
    c ≠ '<' ∧ c ≠ '>' ∧ c ≠ ',' := by
  refine ⟨?_, ?_, ?_⟩ <;> (rintro rfl; exact absurd h (by decide))

theorem renderPath_plain {p : List (List Char)} (hp : pathOk p = true) :
    ∀ c ∈ renderPath p, c ≠ '<' ∧ c ≠ '>' ∧ c ≠ ',' := by
  intro c hc
  rcases renderPath_chars (pathOk_all hp) c hc with h | rfl
  · exact identChar_plain h
  · exact ⟨by decide, by decide, by decide⟩

mutual
/-- Scanning the render of a well-formed descriptor from a non-negative
depth crosses it without splitting: every comma inside it sits under at
least one angle bracket, and its brackets are balanced. -/
theorem scanRender : ∀ (d : Desc), WF d = true →
    ∀ (depth : Int) (cur rest : List Char), 0 ≤ depth →
      splitGenericsAbs (render d ++ rest) depth cur =
        splitGenericsAbs rest depth (cur ++ render d)
  | .base p, hwf, depth, cur, rest, _ => by
    have hp : pathOk p = true := by simpa [WF] using hwf
    simpa only [render] using scanPlain (renderPath_plain hp) rest depth cur
  | .dynT p, hwf, depth, cur, rest, _ => by
    have hp : pathOk p = true := by simpa [WF] using hwf
    have hw : ∀ c ∈ "dyn ".toList ++ renderPath p, c ≠ '<' ∧ c ≠ '>' ∧ c ≠ ',' := by
      intro c hc
      rcases List.mem_append.mp hc with hc | hc
      · have hdl : "dyn ".toList = ['d', 'y', 'n', ' '] := rfl
        rw [hdl] at hc
        simp only [List.mem_cons, List.not_mem_nil, or_false] at hc
        rcases hc with rfl | rfl | rfl | rfl <;> exact ⟨by decide, by decide, by decide⟩
      · exact renderPath_plain hp c hc
    simpa only [render] using scanPlain hw rest depth cur
  | .ref d, hwf, depth, cur, rest, hd => by
    have hwd : WF d = true := by simpa [WF] using hwf
    have hr : render (.ref d) = '&' :: render d := by simp [render]
    rw [hr, List.cons_append,
      scanStep ⟨by decide, by decide, by decide⟩ (render d ++ rest) depth cur,
      scanRender d hwd depth (cur ++ ['&']) rest hd]
    congr 1
    simp
  | .generic p args, hwf, depth, cur, rest, hd => by
    have hconj : pathOk p = true ∧ WFArgs args = true := by
      have h0 := hwf
      rw [WF, Bool.and_eq_true] at h0
      exact h0
    have hr : render (.generic p args) =
        renderPath p ++ '<' :: (renderArgs args ++ ['>']) := by simp [render]
    rw [hr]
    have e1 : (renderPath p ++ '<' :: (renderArgs args ++ ['>'])) ++ rest =
        renderPath p ++ ('<' :: (renderArgs args ++ '>' :: rest)) := by
      simp
    rw [e1, scanPlain (renderPath_plain hconj.1), splitGenericsAbs, if_pos rfl,
      scanArgs args hconj.2 (depth + 1) ((cur ++ renderPath p) ++ ['<'])
        ('>' :: rest) (by omega),
      splitGenericsAbs, if_neg (by decide), if_pos rfl,
      show depth + 1 - 1 = depth by omega]
    congr 1
    simp
  | .arr d n, hwf, depth, cur, rest, hd => by
    have hconj : WF d = true ∧ n.all Char.isDigit = true := by
      have h0 := hwf
      rw [WF] at h0
      simp only [Bool.and_eq_true] at h0
      exact ⟨h0.1.1.1, h0.2⟩
    have hn : ∀ c ∈ n, c ≠ '<' ∧ c ≠ '>' ∧ c ≠ ',' := fun c hc =>
      isDigit_plain (by
        have := hconj.2
        rw [List.all_eq_true] at this
        exact this c hc)
    have hr : render (.arr d n) = '[' :: (render d ++ ';' :: ' ' :: (n ++ [']'])) := by
      simp [render]
    rw [hr]
    have e1 : ('[' :: (render d ++ ';' :: ' ' :: (n ++ [']']))) ++ rest =
        '[' :: (render d ++ (';' :: ' ' :: (n ++ ']' :: rest))) := by
      simp
    rw [e1, scanStep ⟨by decide, by decide, by decide⟩ _ depth cur,
      scanRender d hconj.1 depth (cur ++ ['[']) _ hd,
      scanStep ⟨by decide, by decide, by decide⟩ _ depth _,
      scanStep ⟨by decide, by decide, by decide⟩ _ depth _,
      scanPlain hn (']' :: rest) depth _,
      scanStep ⟨by decide, by decide, by decide⟩ rest depth _]
    congr 1
    simp
/-- Scanning a rendered well-formed argument list from a positive depth
crosses it without splitting: its separator commas sit exactly at the
enclosing depth, which is not zero. -/
theorem scanArgs : ∀ (l : DescArgs), WFArgs l = true →
    ∀ (depth : Int) (cur rest : List Char), 1 ≤ depth →
      splitGenericsAbs (renderArgs l ++ rest) depth cur =
        splitGenericsAbs rest depth (cur ++ renderArgs l)
  | .single d, hwf, depth, cur, rest, hd => by
    have hwd : WF d = true := by simpa [WFArgs] using hwf
    have hr : renderArgs (.single d) = render d := by simp [renderArgs]
    rw [hr]
    exact scanRender d hwd depth cur rest (by omega)
  | .cons d r2, hwf, depth, cur, rest, hd => by
    have hconj : WF d = true ∧ WFArgs r2 = true := by
      have h0 := hwf
      rw [WFArgs, Bool.and_eq_true] at h0
      exact h0
    have hr : renderArgs (.cons d r2) = render d ++ ',' :: ' ' :: renderArgs r2 := by
      simp [renderArgs]
    rw [hr]
    have e1 : (render d ++ ',' :: ' ' :: renderArgs r2) ++ rest =
        render d ++ (',' :: ' ' :: (renderArgs r2 ++ rest)) := by
      simp
    rw [e1, scanRender d hconj.1 depth cur _ (by omega),
      splitGenericsAbs, if_neg (by decide), if_neg (by decide),
      if_neg (show ¬(',' = ',' ∧ depth = 0) from fun h => by omega),
      scanStep ⟨by decide, by decide, by decide⟩ _ depth _,
      scanArgs r2 hconj.2 depth _ rest hd]
    congr 1
    simp
end

/-! ## Edge characters of well-formed renders, and trimming -/

theorem mem_of_head?_eq {α : Type} {l : List α} {x : α}
    (h : l.head? = some x) : x ∈ l := by
  cases l with
  | nil => cases h
  | cons a t =>
    rw [List.head?_cons] at h
    cases h
    exact List.mem_cons_self _ _

theorem not_ws_of_identChar {c : Char} (h : identChar c = true) :
    c.isWhitespace = false := by
  cases h2 : c.isWhitespace with
  | false => rfl
  | true => rw [identChar_not_ws h2] at h; cases h

theorem not_ws_of_path_mem {p : List (List Char)} (hp : pathOk p = true)
    {c : Char} (hc : c ∈ renderPath p) : c.isWhitespace = false := by
  rcases renderPath_chars (pathOk_all hp) c hc with h | rfl
  · exact not_ws_of_identChar h
  · rfl

/-- The render of a well-formed descriptor is non-empty and has no leading
or trailing whitespace. -/
theorem renderEdge : ∀ (d : Desc), WF d = true →
    render d ≠ [] ∧
      (∀ c, (render d).head? = some c → c.isWhitespace = false) ∧
      (∀ c, (render d).getLast? = some c → c.isWhitespace = false)
  | .base p, hwf => by
    have hp : pathOk p = true := by simpa [WF] using hwf
    refine ⟨by simpa [render] using renderPath_ne_nil hp, ?_, ?_⟩
    · intro c hc
      exact not_ws_of_path_mem hp (mem_of_head?_eq (by simpa [render] using hc))
    · intro c hc
      exact not_ws_of_path_mem hp (mem_of_getLast?_eq (by simpa [render] using hc))
  | .dynT p, hwf => by
    have hp : pathOk p = true := by simpa [WF] using hwf
    have hr : render (.dynT p) = "dyn ".toList ++ renderPath p := by simp [render]
    refine ⟨?_, ?_, ?_⟩
    · rw [hr]; simp
    · intro c hc
      rw [hr, List.head?_append_of_ne_nil _ (by decide)] at hc
      cases hc
      rfl
    · intro c hc
      rw [hr, List.getLast?_append_of_ne_nil _ (renderPath_ne_nil hp)] at hc
      exact not_ws_of_path_mem hp (mem_of_getLast?_eq hc)
  | .ref d, hwf => by
    have hwd : WF d = true := by simpa [WF] using hwf
    obtain ⟨hne, _, hlast⟩ := renderEdge d hwd
    have hr : render (.ref d) = '&' :: render d := by simp [render]
    refine ⟨by rw [hr]; exact List.cons_ne_nil _ _, ?_, ?_⟩
    · intro c hc
      rw [hr, List.head?_cons] at hc
      cases hc
      rfl
    · intro c hc
      rw [hr, show ('&' :: render d) = ['&'] ++ render d from rfl,
        List.getLast?_append_of_ne_nil _ hne] at hc
      exact hlast c hc
  | .generic p args, hwf => by
    have hp : pathOk p = true := by
      have h0 := hwf
      rw [WF, Bool.and_eq_true] at h0
      exact h0.1
    obtain ⟨a, t, heq, ha⟩ := renderPath_head_ident hp
    have hr : render (.generic p args) =
        a :: (t ++ '<' :: (renderArgs args ++ ['>'])) := by
      simp [render, heq]
    have hr2 : render (.generic p args) =
        (renderPath p ++ '<' :: renderArgs args) ++ ['>'] := by
      simp [render]
    refine ⟨by rw [hr]; exact List.cons_ne_nil _ _, ?_, ?_⟩
    · intro c hc
      rw [hr, List.head?_cons] at hc
      cases hc
      exact not_ws_of_identChar ha
    · intro c hc
      rw [hr2, List.getLast?_concat] at hc
      cases hc
      rfl
  | .arr d n, hwf => by
    have hr : render (.arr d n) =
        '[' :: (render d ++ ';' :: ' ' :: (n ++ [']'])) := by simp [render]
    have hr2 : render (.arr d n) =
        ('[' :: (render d ++ ';' :: ' ' :: n)) ++ [']'] := by simp [render]
    refine ⟨by rw [hr]; exact List.cons_ne_nil _ _, ?_, ?_⟩
    · intro c hc
      rw [hr, List.head?_cons] at hc
      cases hc
      rfl
    · intro c hc
      rw [hr2, List.getLast?_concat] at hc
      cases hc
      rfl

theorem dropWhile_append_all {p : Char → Bool} {a : List Char}
    (ha : ∀ c ∈ a, p c = true) (b : List Char) :
    (a ++ b).dropWhile p = b.dropWhile p := by
  induction a with
  | nil => rfl
  | cons c a2 ih =>
    rw [List.cons_append, List.dropWhile_cons, if_pos (ha c (by simp))]
    exact ih (fun x hx => ha x (List.mem_cons_of_mem c hx))

theorem trimStr_clean {cur r : List Char} (hcur : ∀ c ∈ cur, c = ' ')
    (hne : r ≠ []) (hh : ∀ c, r.head? = some c → c.isWhitespace = false)
    (hl : ∀ c, r.getLast? = some c → c.isWhitespace = false) :
    trimStr (cur ++ r) = r := by
  have hdrop : (cur ++ r).dropWhile Char.isWhitespace = r := by
    rw [dropWhile_append_all (fun c hc => by rw [hcur c hc]; rfl)]
    cases hr : r with
    | nil => rfl
    | cons a t =>
      rw [List.dropWhile_cons, if_neg (by rw [hh a (by rw [hr]; rfl)]; simp)]
  rw [trimStr, hdrop]
  cases hrev : r.reverse with
  | nil => exact absurd (by simpa using congrArg List.reverse hrev) hne
  | cons a t =>
    have hlast : r.getLast? = some a := by
      rw [← List.head?_reverse, hrev, List.head?_cons]
    rw [List.dropWhile_cons, if_neg (by rw [hl a hlast]; simp), ← hrev,
      List.reverse_reverse]

/-- On the rendered argument text of a well-formed argument list, the
`parse_generics` splitter recovers exactly the individual argument renders. -/
theorem splitAbs_renderArgs : ∀ (l : DescArgs), WFArgs l = true →
    ∀ (cur : List Char), (∀ c ∈ cur, c = ' ') →
      splitGenericsAbs (renderArgs l) 0 cur = renderList l
  | .single d, hwf, cur, hcur => by
    have hwd : WF d = true := by simpa [WFArgs] using hwf
    obtain ⟨hne, hh, hl⟩ := renderEdge d hwd
    have hr : renderArgs (.single d) = render d := by simp [renderArgs]
    have hsc := scanRender d hwd 0 cur [] (Int.le_refl 0)
    rw [List.append_nil] at hsc
    rw [hr, hsc, splitGenericsAbs, trimStr_clean hcur hne hh hl, if_neg hne]
    simp [renderList]
  | .cons d r2, hwf, cur, hcur => by
    have hconj : WF d = true ∧ WFArgs r2 = true := by
      have h0 := hwf
      rw [WFArgs, Bool.and_eq_true] at h0
      exact h0
    obtain ⟨hne, hh, hl⟩ := renderEdge d hconj.1
    have hr : renderArgs (.cons d r2) = render d ++ ',' :: ' ' :: renderArgs r2 := by
      simp [renderArgs]
    rw [hr, scanRender d hconj.1 0 cur (',' :: ' ' :: renderArgs r2) (Int.le_refl 0),
      splitGenericsAbs, if_neg (by decide), if_neg (by decide),
      if_pos ⟨rfl, rfl⟩, trimStr_clean hcur hne hh hl,
      scanStep ⟨by decide, by decide, by decide⟩ (renderArgs r2) 0 [],
      show ([] : List Char) ++ [' '] = [' '] from rfl,
      splitAbs_renderArgs r2 hconj.2 [' '] (by simp)]
    simp [renderList]

mutual
/-- A render of a well-formed descriptor containing no array form contains
no semicolon. -/
theorem renderNoSemi : ∀ (d : Desc), WF d = true → hasArr d = false →
    ';' ∉ render d
  | .base p, hwf, _ => by
    have hp : pathOk p = true := by simpa [WF] using hwf
    simp only [render]
    exact not_mem_renderPath hp ';' (by decide) (by decide)
  | .dynT p, hwf, _ => by
    have hp : pathOk p = true := by simpa [WF] using hwf
    have hr : render (.dynT p) = "dyn ".toList ++ renderPath p := by simp [render]
    rw [hr]
    intro hmem
    rcases List.mem_append.mp hmem with hc | hc
    · have hdl : "dyn ".toList = ['d', 'y', 'n', ' '] := rfl
      rw [hdl] at hc
      simp at hc
    · exact not_mem_renderPath hp ';' (by decide) (by decide) hc
  | .ref d, hwf, harr => by
    have hwd : WF d = true := by simpa [WF] using hwf
    have had : hasArr d = false := by simpa [hasArr] using harr
    have hr : render (.ref d) = '&' :: render d := by simp [render]
    rw [hr]
    intro hmem
    rcases List.mem_cons.mp hmem with h | h
    · cases h
    · exact renderNoSemi d hwd had h
  | .generic p args, hwf, harr => by
    have hconj : pathOk p = true ∧ WFArgs args = true := by
      have h0 := hwf
      rw [WF, Bool.and_eq_true] at h0
      exact h0
    have hargs : hasArrArgs args = false := by simpa [hasArr] using harr
    have hr : render (.generic p args) =
        renderPath p ++ '<' :: (renderArgs args ++ ['>']) := by simp [render]
    rw [hr]
    intro hmem
    rcases List.mem_append.mp hmem with hc | hc
    · exact not_mem_renderPath hconj.1 ';' (by decide) (by decide) hc
    · rcases List.mem_cons.mp hc with h | h
      · cases h
      · rcases List.mem_append.mp h with h | h
        · exact renderNoSemiArgs args hconj.2 hargs h
        · simp at h
  | .arr d n, hwf, harr => by
    rw [hasArr] at harr
    cases harr
theorem renderNoSemiArgs : ∀ (l : DescArgs), WFArgs l = true → hasArrArgs l = false →
    ';' ∉ renderArgs l
  | .single d, hwf, harr => by
    have hwd : WF d = true := by simpa [WFArgs] using hwf
    have had : hasArr d = false := by simpa [hasArrArgs] using harr
    have hr : renderArgs (.single d) = render d := by simp [renderArgs]
    rw [hr]
    exact renderNoSemi d hwd had
  | .cons d r2, hwf, harr => by
    have hconj : WF d = true ∧ WFArgs r2 = true := by
      have h0 := hwf
      rw [WFArgs, Bool.and_eq_true] at h0
      exact h0
    have harr2 : hasArr d = false ∧ hasArrArgs r2 = false := by
      have h0 := harr
      rw [hasArrArgs, Bool.or_eq_false_iff] at h0
      exact h0
    have hr : renderArgs (.cons d r2) = render d ++ ',' :: ' ' :: renderArgs r2 := by
      simp [renderArgs]
    rw [hr]
    intro hmem
    rcases List.mem_append.mp hmem with h | h
    · exact renderNoSemi d hconj.1 harr2.1 h
    · rcases List.mem_cons.mp h with h | h
      · cases h
      · rcases List.mem_cons.mp h with h | h
        · cases h
        · exact renderNoSemiArgs r2 hconj.2 harr2.2 h
end

/-- Every rendered argument is no longer than the whole argument text. -/
theorem renderList_len : ∀ (l : DescArgs), ∀ r ∈ renderList l,
    r.length ≤ (renderArgs l).length
  | .single d, r, hr => by
    have : r = render d := by simpa [renderList] using hr
    subst this
    simp [renderArgs]
  | .cons d r2, r, hr => by
    have hlen : (renderArgs (.cons d r2)).length =
        (render d).length + 2 + (renderArgs r2).length := by
      simp [renderArgs]
      omega
    rcases List.mem_cons.mp (by simpa [renderList] using hr) with rfl | hr2
    · omega
    · have := renderList_len r2 r hr2
      omega

/-- Joining the rendered arguments with `", "` recovers the argument text. -/
theorem joinComma_renderList : ∀ (l : DescArgs),
    joinComma (renderList l) = renderArgs l
  | .single d => by simp [renderList, joinComma, renderArgs]
  | .cons d r2 => by
    obtain ⟨y, rest, hy⟩ : ∃ y rest, renderList r2 = y :: rest := by
      cases r2 with
      | single d2 => exact ⟨render d2, [], rfl⟩
      | cons d2 r3 => exact ⟨render d2, renderList r3, rfl⟩
    have h1 : renderList (.cons d r2) = render d :: renderList r2 := by
      simp [renderList]
    rw [h1, hy, joinComma, ← hy, joinComma_renderList r2]
    simp [renderArgs]

/-! ## The canonical form: well-formedness preservation and idempotence -/

theorem canonPath_pathOk {p : List (List Char)} (hp : pathOk p = true) :
    pathOk (canonPath p) = true := by
  rw [canonPath]
  split_ifs with h1 h2 h3 h4 h5
  · decide
  · decide
  · decide
  · decide
  · obtain ⟨x, hx⟩ := getLast?_some_of_ne_nil (pathOk_ne_nil hp)
    rw [hx]
    have hxOk : identOk x = true := pathOk_all hp x (mem_of_getLast?_eq hx)
    exact pathOk_cons_of hxOk (fun s hs => absurd hs (by simp))
  · exact hp

theorem canonPath_single {x : List Char} : canonPath [x] = [x] := by
  rw [canonPath]
  rw [if_neg (by simp), if_neg (by simp), if_neg (by simp), if_neg (by simp),
    if_neg (by simp)]

theorem canonPath_idem {p : List (List Char)} (hp : pathOk p = true) :
    canonPath (canonPath p) = canonPath p := by
  by_cases h1 : p = ["std".toList, "error".toList, "Error".toList]
  · subst h1; rfl
  by_cases h2 : p = ["core".toList, "fmt".toList, "Debug".toList]
  · subst h2; rfl
  by_cases h3 : p = ["core".toList, "fmt".toList, "Display".toList]
  · subst h3; rfl
  by_cases h4 : p = ["core".toList, "any".toList, "Any".toList]
  · subst h4; rfl
  by_cases h5 : 2 ≤ p.length ∧ (p.head? = some "std".toList ∨
      p.head? = some "core".toList ∨ p.head? = some "alloc".toList)
  · obtain ⟨x, hx⟩ := getLast?_some_of_ne_nil (pathOk_ne_nil hp)
    have hcp : canonPath p = [x] := by
      rw [canonPath, if_neg h1, if_neg h2, if_neg h3, if_neg h4, if_pos h5, hx]
    rw [hcp, canonPath_single]
  · have hcp : canonPath p = p := by
      rw [canonPath, if_neg h1, if_neg h2, if_neg h3, if_neg h4, if_neg h5]
    rw [hcp, hcp]

mutual
theorem hasArr_canon : ∀ (d : Desc), hasArr (canonD d) = hasArr d
  | .base p => by simp [canonD, hasArr]
  | .dynT p => by simp [canonD, hasArr]
  | .ref d => by
    rw [show canonD (.ref d) = .ref (canonD d) from by simp [canonD]]
    rw [show hasArr (Desc.ref (canonD d)) = hasArr (canonD d) from by simp [hasArr]]
    rw [show hasArr (Desc.ref d) = hasArr d from by simp [hasArr]]
    exact hasArr_canon d
  | .generic p args => by
    rw [show canonD (.generic p args) = .generic (canonPath p) (canonArgs args) from
      by simp [canonD]]
    rw [show hasArr (Desc.generic (canonPath p) (canonArgs args)) =
      hasArrArgs (canonArgs args) from by simp [hasArr]]
    rw [show hasArr (Desc.generic p args) = hasArrArgs args from by simp [hasArr]]
    exact hasArrArgs_canon args
  | .arr d n => by
    rw [show canonD (.arr d n) = .arr (canonD d) n from by simp [canonD]]
    simp [hasArr]
theorem hasArrArgs_canon : ∀ (l : DescArgs), hasArrArgs (canonArgs l) = hasArrArgs l
  | .single d => by
    rw [show canonArgs (.single d) = .single (canonD d) from by simp [canonArgs]]
    rw [show hasArrArgs (DescArgs.single (canonD d)) = hasArr (canonD d) from
      by simp [hasArrArgs]]
    rw [show hasArrArgs (DescArgs.single d) = hasArr d from by simp [hasArrArgs]]
    exact hasArr_canon d
  | .cons d r2 => by
    rw [show canonArgs (.cons d r2) = .cons (canonD d) (canonArgs r2) from
      by simp [canonArgs]]
    rw [show hasArrArgs (DescArgs.cons (canonD d) (canonArgs r2)) =
      (hasArr (canonD d) || hasArrArgs (canonArgs r2)) from by simp [hasArrArgs]]
    rw [show hasArrArgs (DescArgs.cons d r2) = (hasArr d || hasArrArgs r2) from
      by simp [hasArrArgs]]
    rw [hasArr_canon d, hasArrArgs_canon r2]
end

mutual
theorem WF_canon : ∀ (d : Desc), WF d = true → WF (canonD d) = true
  | .base p, hwf => by
    have hp : pathOk p = true := by simpa [WF] using hwf
    rw [show canonD (.base p) = .base (canonPath p) from by simp [canonD]]
    simpa [WF] using canonPath_pathOk hp
  | .dynT p, hwf => by
    have hp : pathOk p = true := by simpa [WF] using hwf
    rw [show canonD (.dynT p) = .dynT (canonPath p) from by simp [canonD]]
    simpa [WF] using canonPath_pathOk hp
  | .ref d, hwf => by
    have hwd : WF d = true := by simpa [WF] using hwf
    rw [show canonD (.ref d) = .ref (canonD d) from by simp [canonD]]
    simpa [WF] using WF_canon d hwd
  | .generic p args, hwf => by
    have hconj : pathOk p = true ∧ WFArgs args = true := by
      have h0 := hwf
      rw [WF, Bool.and_eq_true] at h0
      exact h0
    rw [show canonD (.generic p args) = .generic (canonPath p) (canonArgs args) from
      by simp [canonD]]
    rw [WF, Bool.and_eq_true]
    exact ⟨canonPath_pathOk hconj.1, WFArgs_canon args hconj.2⟩
  | .arr d n, hwf => by
    have h0 := hwf
    rw [WF] at h0
    simp only [Bool.and_eq_true] at h0
    rw [show canonD (.arr d n) = .arr (canonD d) n from by simp [canonD]]
    rw [WF]
    simp only [Bool.and_eq_true]
    refine ⟨⟨⟨WF_canon d h0.1.1.1, ?_⟩, h0.1.2⟩, h0.2⟩
    rw [hasArr_canon d]
    exact h0.1.1.2
theorem WFArgs_canon : ∀ (l : DescArgs), WFArgs l = true → WFArgs (canonArgs l) = true
  | .single d, hwf => by
    have hwd : WF d = true := by simpa [WFArgs] using hwf
    rw [show canonArgs (.single d) = .single (canonD d) from by simp [canonArgs]]
    simpa [WFArgs] using WF_canon d hwd
  | .cons d r2, hwf => by
    have hconj : WF d = true ∧ WFArgs r2 = true := by
      have h0 := hwf
      rw [WFArgs, Bool.and_eq_true] at h0
      exact h0
    rw [show canonArgs (.cons d r2) = .cons (canonD d) (canonArgs r2) from
      by simp [canonArgs]]
    rw [WFArgs, Bool.and_eq_true]
    exact ⟨WF_canon d hconj.1, WFArgs_canon r2 hconj.2⟩
end

mutual
theorem canonD_idem : ∀ (d : Desc), WF d = true → canonD (canonD d) = canonD d
  | .base p, hwf => by
    have hp : pathOk p = true := by simpa [WF] using hwf
    simp [canonD, canonPath_idem hp]
  | .dynT p, hwf => by
    have hp : pathOk p = true := by simpa [WF] using hwf
    simp [canonD, canonPath_idem hp]
  | .ref d, hwf => by
    have hwd : WF d = true := by simpa [WF] using hwf
    simp [canonD, canonD_idem d hwd]
  | .generic p args, hwf => by
    have hconj : pathOk p = true ∧ WFArgs args = true := by
      have h0 := hwf
      rw [WF, Bool.and_eq_true] at h0
      exact h0
    simp [canonD, canonPath_idem hconj.1, canonArgs_idem args hconj.2]
  | .arr d n, hwf => by
    have h0 := hwf
    rw [WF] at h0
    simp only [Bool.and_eq_true] at h0
    simp [canonD, canonD_idem d h0.1.1.1]
theorem canonArgs_idem : ∀ (l : DescArgs), WFArgs l = true →
    canonArgs (canonArgs l) = canonArgs l
  | .single d, hwf => by
    have hwd : WF d = true := by simpa [WFArgs] using hwf
    simp [canonArgs, canonD_idem d hwd]
  | .cons d r2, hwf => by
    have hconj : WF d = true ∧ WFArgs r2 = true := by
      have h0 := hwf
      rw [WFArgs, Bool.and_eq_true] at h0
      exact h0
    simp [canonArgs, canonD_idem d hconj.1, canonArgs_idem r2 hconj.2]
end

/-! ## Remaining helpers for the main canonicalization theorem -/

theorem posRFind_concat (c : Char) (t : List Char) :
    posRFind c (t ++ [c]) = some t.length := by
  rw [posRFind]
  have h1 : (t ++ [c]).reverse = c :: t.reverse := by simp
  rw [h1, posFind, if_pos rfl]
  simp

theorem contains_of_mem {c : Char} {s : List Char} (h : c ∈ s) :
    s.contains c = true :=
  List.elem_iff.mpr h

/-- A rendered generic instantiation never starts with `"dyn "`: the first
path segment would have to be `dyn`, and then the fourth character is the
`<`, never a space. -/
theorem not_dyn_prefix_generic {p : List (List Char)} (hp : pathOk p = true)
    (t : List Char) :
    startsWithStr "dyn ".toList (renderPath p ++ '<' :: t) = false := by
  have hchars : ∀ c ∈ renderPath p, identChar c = true ∨ c = ':' :=
    renderPath_chars (pathOk_all hp)
  have hne : renderPath p ≠ [] := renderPath_ne_nil hp
  revert hchars hne
  generalize renderPath p = m
  intro hchars hne
  cases hsw : startsWithStr "dyn ".toList (m ++ '<' :: t) with
  | false => rfl
  | true =>
    exfalso
    rw [startsWithStr] at hsw
    have hg := get?_of_isPrefixOf _ _ hsw
    rcases m with _ | ⟨a, _ | ⟨b, _ | ⟨c0, rest⟩⟩⟩
    · exact hne rfl
    · have h1 := hg 1 (by decide)
      exact absurd (Option.some.inj h1) (by decide)
    · have h2 := hg 2 (by decide)
      exact absurd (Option.some.inj h2) (by decide)
    · cases rest with
      | nil =>
        have h3 := hg 3 (by decide)
        exact absurd (Option.some.inj h3) (by decide)
      | cons d0 rest2 =>
        have h3 := hg 3 (by decide)
        have hd0 : d0 = ' ' := Option.some.inj h3
        have hmem : d0 ∈ a :: b :: c0 :: d0 :: rest2 := by simp
        rcases hchars d0 hmem with hid | hcol
        · rw [hd0] at hid
          exact absurd hid (by decide)
        · rw [hd0] at hcol
          cases hcol

mutual
/-- Main canonicalization theorem: on the render of a well-formed
(pointer-free) descriptor, `process_type_name` terminates without panicking
and returns the render of the canonical form. -/
theorem processRender : ∀ (d : Desc), WF d = true →
    ∀ (f : Nat), (render d).length < f →
      processTypeNameF f (render d) = some (render (canonD d))
  | .base p, hwf, f, hf => by
    have hp : pathOk p = true := by simpa [WF] using hwf
    have hs : render (.base p) = renderPath p := by simp [render]
    have hc : render (canonD (.base p)) = renderPath (canonPath p) := by
      simp [render, canonD]
    rw [hs] at hf ⊢
    rw [hc]
    cases f with
    | zero => exact absurd hf (Nat.not_lt_zero _)
    | succ f =>
      have hb1 : startsWithStr "[".toList (renderPath p) = false :=
        startsWith_false_of_mem '[' (by decide)
          (not_mem_renderPath hp '[' (by decide) (by decide))
      have hb2 : startsWithStr "&".toList (renderPath p) = false :=
        startsWith_false_of_mem '&' (by decide)
          (not_mem_renderPath hp '&' (by decide) (by decide))
      have hb3 : startsWithStr "*const ".toList (renderPath p) = false :=
        startsWith_false_of_mem '*' (by decide)
          (not_mem_renderPath hp '*' (by decide) (by decide))
      have hb4 : startsWithStr "*mut ".toList (renderPath p) = false :=
        startsWith_false_of_mem '*' (by decide)
          (not_mem_renderPath hp '*' (by decide) (by decide))
      have hb5 : startsWithStr "dyn ".toList (renderPath p) = false :=
        startsWith_false_of_mem ' ' (by decide)
          (not_mem_renderPath hp ' ' (by decide) (by decide))
      have hpos : posFind '<' (renderPath p) = none :=
        posFind_eq_none_of_not_mem (not_mem_renderPath hp '<' (by decide) (by decide))
      simp only [processTypeNameF]
      rw [if_neg (fun h => by rw [hb1] at h; exact Bool.false_ne_true h.1),
        if_neg (by rw [hb2]; exact Bool.false_ne_true),
        if_neg (fun h => by
          rcases h with h | h
          · rw [hb3] at h; exact Bool.false_ne_true h
          · rw [hb4] at h; exact Bool.false_ne_true h),
        if_neg (by rw [hb5]; exact Bool.false_ne_true), hpos]
      rw [processBaseType_path hp]
  | .dynT p, hwf, f, hf => by
    have hp : pathOk p = true := by simpa [WF] using hwf
    have hs : render (.dynT p) = "dyn ".toList ++ renderPath p := by simp [render]
    have hc : render (canonD (.dynT p)) = "dyn ".toList ++ renderPath (canonPath p) := by
      simp [render, canonD]
    rw [hs] at hf ⊢
    rw [hc]
    cases f with
    | zero => exact absurd hf (Nat.not_lt_zero _)
    | succ f =>
      have hnotmem : ∀ x : Char, x ∉ ['d', 'y', 'n', ' '] → identChar x = false →
          x ≠ ':' → x ∉ "dyn ".toList ++ renderPath p := by
        intro x hx1 hx2 hx3 hmem
        rcases List.mem_append.mp hmem with h | h
        · exact hx1 (by simpa using h)
        · exact not_mem_renderPath hp x hx2 hx3 h
      have hb1 : startsWithStr "[".toList ("dyn ".toList ++ renderPath p) = false :=
        startsWith_false_of_mem '[' (by decide)
          (hnotmem '[' (by decide) (by decide) (by decide))
      have hb2 : startsWithStr "&".toList ("dyn ".toList ++ renderPath p) = false :=
        startsWith_false_of_mem '&' (by decide)
          (hnotmem '&' (by decide) (by decide) (by decide))
      have hb3 : startsWithStr "*const ".toList ("dyn ".toList ++ renderPath p) = false :=
        startsWith_false_of_mem '*' (by decide)
          (hnotmem '*' (by decide) (by decide) (by decide))
      have hb4 : startsWithStr "*mut ".toList ("dyn ".toList ++ renderPath p) = false :=
        startsWith_false_of_mem '*' (by decide)
          (hnotmem '*' (by decide) (by decide) (by decide))
      have hb5 : startsWithStr "dyn ".toList ("dyn ".toList ++ renderPath p) = true :=
        isPrefixOf_append_self "dyn ".toList (renderPath p)
      have hdrop : ("dyn ".toList ++ renderPath p).drop 4 = renderPath p := rfl
      simp only [processTypeNameF]
      rw [if_neg (fun h => by rw [hb1] at h; exact Bool.false_ne_true h.1),
        if_neg (by rw [hb2]; exact Bool.false_ne_true),
        if_neg (fun h => by
          rcases h with h | h
          · rw [hb3] at h; exact Bool.false_ne_true h
          · rw [hb4] at h; exact Bool.false_ne_true h),
        if_pos hb5, hdrop, processBaseType_path hp]
  | .ref d, hwf, f, hf => by
    have hwd : WF d = true := by simpa [WF] using hwf
    have hs : render (.ref d) = '&' :: render d := by simp [render]
    have hc : render (canonD (.ref d)) = '&' :: render (canonD d) := by
      simp [render, canonD]
    rw [hs] at hf ⊢
    rw [hc]
    cases f with
    | zero => exact absurd hf (Nat.not_lt_zero _)
    | succ f =>
      have hb1 : startsWithStr "[".toList ('&' :: render d) = false := by
        rw [show "[".toList = '[' :: [] from rfl]
        exact startsWith_false_of_head [] (render d) (by decide)
      have hb2 : startsWithStr "&".toList ('&' :: render d) = true := by
        rw [show ('&' :: render d) = "&".toList ++ render d from rfl]
        exact isPrefixOf_append_self "&".toList (render d)
      have hih := processRender d hwd f (by
        simp only [List.length_cons] at hf
        omega)
      simp only [processTypeNameF]
      rw [if_neg (fun h => by rw [hb1] at h; exact Bool.false_ne_true h.1),
        if_pos hb2, show ('&' :: render d).drop 1 = render d from rfl, hih]
  | .generic p args, hwf, f, hf => by
    have hconj : pathOk p = true ∧ WFArgs args = true := by
      have h0 := hwf
      rw [WF, Bool.and_eq_true] at h0
      exact h0
    obtain ⟨a, t0, heq, ha⟩ := renderPath_head_ident hconj.1
    have hs : render (.generic p args) =
        renderPath p ++ '<' :: (renderArgs args ++ ['>']) := by simp [render]
    have hc : render (canonD (.generic p args)) =
        renderPath (canonPath p) ++ '<' :: (renderArgs (canonArgs args) ++ ['>']) := by
      simp [render, canonD]
    rw [hs] at hf ⊢
    rw [hc]
    cases f with
    | zero => exact absurd hf (Nat.not_lt_zero _)
    | succ f =>
      have hcons : renderPath p ++ '<' :: (renderArgs args ++ ['>']) =
          a :: (t0 ++ '<' :: (renderArgs args ++ ['>'])) := by
        rw [heq]
        simp
      have hnea : ∀ x : Char, identChar x = false → x ≠ a := by
        intro x hx hcon
        rw [hcon] at hx
        rw [ha] at hx
        cases hx
      have hb1 : startsWithStr "[".toList
          (renderPath p ++ '<' :: (renderArgs args ++ ['>'])) = false := by
        rw [hcons, show "[".toList = '[' :: [] from rfl]
        exact startsWith_false_of_head _ _ (hnea '[' (by decide))
      have hb2 : startsWithStr "&".toList
          (renderPath p ++ '<' :: (renderArgs args ++ ['>'])) = false := by
        rw [hcons, show "&".toList = '&' :: [] from rfl]
        exact startsWith_false_of_head _ _ (hnea '&' (by decide))
      have hb3 : startsWithStr "*const ".toList
          (renderPath p ++ '<' :: (renderArgs args ++ ['>'])) = false := by
        rw [hcons, show "*const ".toList = '*' :: "const ".toList from rfl]
        exact startsWith_false_of_head _ _ (hnea '*' (by decide))
      have hb4 : startsWithStr "*mut ".toList
          (renderPath p ++ '<' :: (renderArgs args ++ ['>'])) = false := by
        rw [hcons, show "*mut ".toList = '*' :: "mut ".toList from rfl]
        exact startsWith_false_of_head _ _ (hnea '*' (by decide))
      have hb5 : startsWithStr "dyn ".toList
          (renderPath p ++ '<' :: (renderArgs args ++ ['>'])) = false :=
        not_dyn_prefix_generic hconj.1 (renderArgs args ++ ['>'])
      have hpos : posFind '<' (renderPath p ++ '<' :: (renderArgs args ++ ['>'])) =
          some (renderPath p).length :=
        posFind_append_first
          (not_mem_renderPath hconj.1 '<' (by decide) (by decide)) _
      have hlast : (renderPath p ++ '<' :: (renderArgs args ++ ['>'])).getLast? =
          some '>' := by
        rw [show renderPath p ++ '<' :: (renderArgs args ++ ['>']) =
          (renderPath p ++ '<' :: renderArgs args) ++ ['>'] from by simp]
        exact List.getLast?_concat _
      have htake : (renderPath p ++ '<' :: (renderArgs args ++ ['>'])).take
          (renderPath p).length = renderPath p := List.take_left _ _
      have hlen : (renderPath p ++ '<' :: (renderArgs args ++ ['>'])).length =
          (renderPath p).length + (renderArgs args).length + 2 := by
        simp
        omega
      have hdrop : (renderPath p ++ '<' :: (renderArgs args ++ ['>'])).drop
          ((renderPath p).length + 1) = renderArgs args ++ ['>'] := by
        rw [show renderPath p ++ '<' :: (renderArgs args ++ ['>']) =
          (renderPath p ++ ['<']) ++ (renderArgs args ++ ['>']) from by simp]
        have hl2 : (renderPath p ++ ['<']).length = (renderPath p).length + 1 := by
          simp
        rw [← hl2]
        exact List.drop_left _ _
      have hslice : sliceStr (renderPath p ++ '<' :: (renderArgs args ++ ['>']))
          ((renderPath p).length + 1)
          ((renderPath p ++ '<' :: (renderArgs args ++ ['>'])).length - 1) =
          renderArgs args := by
        rw [sliceStr, hdrop, hlen,
          show (renderPath p).length + (renderArgs args).length + 2 - 1 -
            ((renderPath p).length + 1) = (renderArgs args).length by omega]
        exact List.take_left _ _
      have hsplit : splitGenerics (renderArgs args) = renderList args := by
        rw [splitGenerics_abs]
        exact splitAbs_renderArgs args hconj.2 [] (by simp)
      have hpathlen : 1 ≤ (renderPath p).length :=
        List.length_pos.mpr (renderPath_ne_nil hconj.1)
      have hargsbound : ∀ r ∈ renderList args, r.length < f := by
        intro r hr
        have h1 := renderList_len args r hr
        simp only [hlen, Nat.lt_succ_iff] at hf
        omega
      have hmap : mapOpt (processTypeNameF f) (renderList args) =
          some (renderList (canonArgs args)) :=
        processRenderArgs args hconj.2 f hargsbound
      simp only [processTypeNameF]
      rw [if_neg (fun h => by rw [hb1] at h; exact Bool.false_ne_true h.1),
        if_neg (by rw [hb2]; exact Bool.false_ne_true),
        if_neg (fun h => by
          rcases h with h | h
          · rw [hb3] at h; exact Bool.false_ne_true h
          · rw [hb4] at h; exact Bool.false_ne_true h),
        if_neg (by rw [hb5]; exact Bool.false_ne_true)]
      simp only [hpos]
      rw [if_pos hlast, htake, hslice, hsplit]
      simp only [hmap]
      rw [processBaseType_path hconj.1, joinComma_renderList]
  | .arr d n, hwf, f, hf => by
    have h0 := hwf
    rw [WF] at h0
    simp only [Bool.and_eq_true] at h0
    have hwd : WF d = true := h0.1.1.1
    have hnoarr : hasArr d = false := by
      have := h0.1.1.2
      cases hh : hasArr d
      · rfl
      · rw [hh] at this; cases this
    obtain ⟨hdne, hdh, hdl⟩ := renderEdge d hwd
    have hs : render (.arr d n) = '[' :: (render d ++ ';' :: ' ' :: (n ++ [']'])) := by
      simp [render]
    have hc : render (canonD (.arr d n)) =
        '[' :: (render (canonD d) ++ ';' :: ' ' :: (n ++ [']'])) := by
      simp [render, canonD]
    rw [hs] at hf ⊢
    rw [hc]
    cases f with
    | zero => exact absurd hf (Nat.not_lt_zero _)
    | succ f =>
      have hb1 : startsWithStr "[".toList
          ('[' :: (render d ++ ';' :: ' ' :: (n ++ [']']))) = true := by
        rw [show ('[' :: (render d ++ ';' :: ' ' :: (n ++ [']']))) =
          "[".toList ++ (render d ++ ';' :: ' ' :: (n ++ [']'])) from rfl]
        exact isPrefixOf_append_self _ _
      have hsemimem : ';' ∈ '[' :: (render d ++ ';' :: ' ' :: (n ++ [']'])) := by
        simp
      have hnosemi : ';' ∉ '[' :: render d := by
        intro hmem
        rcases List.mem_cons.mp hmem with h | h
        · cases h
        · exact renderNoSemi d hwd hnoarr h
      have hposf : posFind ';' ('[' :: (render d ++ ';' :: ' ' :: (n ++ [']']))) =
          some ((render d).length + 1) := by
        have := posFind_append_first hnosemi (' ' :: (n ++ [']']))
        rw [show ('[' :: render d) ++ ';' :: ' ' :: (n ++ [']']) =
          '[' :: (render d ++ ';' :: ' ' :: (n ++ [']'])) from by simp] at this
        rw [this]
        simp
      have hposr : posRFind ']' ('[' :: (render d ++ ';' :: ' ' :: (n ++ [']']))) =
          some ('[' :: (render d ++ ';' :: ' ' :: n)).length := by
        have := posRFind_concat ']' ('[' :: (render d ++ ';' :: ' ' :: n))
        rw [show ('[' :: (render d ++ ';' :: ' ' :: n)) ++ [']'] =
          '[' :: (render d ++ ';' :: ' ' :: (n ++ [']'])) from by simp] at this
        exact this
      have hBlen : ('[' :: (render d ++ ';' :: ' ' :: n)).length =
          (render d).length + n.length + 3 := by
        simp
        omega
      have hslice1 : sliceStr ('[' :: (render d ++ ';' :: ' ' :: (n ++ [']']))) 1
          ((render d).length + 1) = render d := by
        rw [sliceStr, show ('[' :: (render d ++ ';' :: ' ' :: (n ++ [']']))).drop 1 =
          render d ++ ';' :: ' ' :: (n ++ [']']) from rfl,
          show (render d).length + 1 - 1 = (render d).length by omega]
        exact List.take_left _ _
      have htrim : trimStr (render d) = render d := by
        have := @trimStr_clean [] (render d) (by simp) hdne hdh hdl
        simpa using this
      have hih := processRender d hwd f (by
        simp only [List.length_cons, List.length_append] at hf
        omega)
      have hslice2 : sliceStr ('[' :: (render d ++ ';' :: ' ' :: (n ++ [']'])))
          ((render d).length + 1) (('[' :: (render d ++ ';' :: ' ' :: n)).length) =
          ';' :: ' ' :: n := by
        rw [sliceStr]
        have hd2 : ('[' :: (render d ++ ';' :: ' ' :: (n ++ [']']))).drop
            ((render d).length + 1) = ';' :: ' ' :: (n ++ [']']) := by
          rw [show ('[' :: (render d ++ ';' :: ' ' :: (n ++ [']']))) =
            ('[' :: render d) ++ ';' :: ' ' :: (n ++ [']']) from by simp,
            show (render d).length + 1 = ('[' :: render d).length from by simp]
          exact List.drop_left _ _
        rw [hd2, hBlen,
          show (render d).length + n.length + 3 - ((render d).length + 1) =
            n.length + 2 by omega]
        rw [show (';' :: ' ' :: (n ++ [']'])).take (n.length + 2) =
          ';' :: ' ' :: ((n ++ [']']).take n.length) from rfl,
          List.take_left _ _]
      have hnlt : ¬ (('[' :: (render d ++ ';' :: ' ' :: n)).length <
          (render d).length + 1) := by
        rw [hBlen]
        omega
      simp only [processTypeNameF]
      rw [if_pos (And.intro hb1 (contains_of_mem hsemimem))]
      simp only [hposf, hposr]
      rw [if_neg hnlt, hslice1, htrim]
      simp only [hih]
      rw [hslice2]
      simp
/-- The generic arguments, processed individually, canonicalize pointwise. -/
theorem processRenderArgs : ∀ (l : DescArgs), WFArgs l = true →
    ∀ (f : Nat), (∀ r ∈ renderList l, r.length < f) →
      mapOpt (processTypeNameF f) (renderList l) = some (renderList (canonArgs l))
  | .single d, hwf, f, hb => by
    have hwd : WF d = true := by simpa [WFArgs] using hwf
    have hr : renderList (.single d) = [render d] := by simp [renderList]
    have hcr : renderList (canonArgs (.single d)) = [render (canonD d)] := by
      simp [renderList, canonArgs]
    rw [hr, hcr, mapOpt, processRender d hwd f (hb (render d) (by rw [hr]; simp)),
      mapOpt]
  | .cons d r2, hwf, f, hb => by
    have hconj : WF d = true ∧ WFArgs r2 = true := by
      have h0 := hwf
      rw [WFArgs, Bool.and_eq_true] at h0
      exact h0
    have hr : renderList (.cons d r2) = render d :: renderList r2 := by
      simp [renderList]
    have hcr : renderList (canonArgs (.cons d r2)) =
        render (canonD d) :: renderList (canonArgs r2) := by
      simp [renderList, canonArgs]
    rw [hr, hcr, mapOpt,
      processRender d hconj.1 f (hb (render d) (by rw [hr]; simp)),
      processRenderArgs r2 hconj.2 f (fun r hrm => hb r (by rw [hr]; simp [hrm]))]
end

/-- **C2** (amended): canonicalization is idempotent on every well-formed,
pointer-free descriptor (array element types semicolon-free). For each such
descriptor `d`, `process_type_name` maps its render to the render of its
canonical form, is a no-op on that canonical form, and hence applying it
twice equals applying it once. (On raw-pointer descriptors idempotence fails;
see the counterexample `process_type_name_not_idempotent_on_const_pointer`.) -/
theorem process_type_name_idempotent_on_wf (d : Desc) (h : WF d = true) :
    processTypeName (render d) = some (render (canonD d)) ∧
    processTypeName (render (canonD d)) = some (render (canonD d)) ∧
    (processTypeName (render d)).bind processTypeName =
      processTypeName (render d) := by
  have h1 : processTypeName (render d) = some (render (canonD d)) :=
    processRender d h ((render d).length + 1) (Nat.lt_succ_self _)
  have h2 : processTypeName (render (canonD d)) =
      some (render (canonD (canonD d))) :=
    processRender (canonD d) (WF_canon d h) ((render (canonD d)).length + 1)
      (Nat.lt_succ_self _)
  have h3 : processTypeName (render (canonD d)) = some (render (canonD d)) := by
    rw [h2, canonD_idem d h]
  refine ⟨h1, h3, ?_⟩
  rw [h1]
  exact h3

/-- Witness for C2 at the concrete descriptor
`alloc::boxed::Box<dyn std::error::Error>`. -/
theorem process_type_name_idempotent_on_wf_witness :
    WF (Desc.generic ["alloc".toList, "boxed".toList, "Box".toList]
      (DescArgs.single
        (Desc.dynT ["std".toList, "error".toList, "Error".toList]))) = true ∧
    (processTypeName (render (Desc.generic
        ["alloc".toList, "boxed".toList, "Box".toList]
        (DescArgs.single
          (Desc.dynT ["std".toList, "error".toList, "Error".toList]))))).bind
        processTypeName =
      processTypeName (render (Desc.generic
        ["alloc".toList, "boxed".toList, "Box".toList]
        (DescArgs.single
          (Desc.dynT ["std".toList, "error".toList, "Error".toList])))) :=
  ⟨by decide,
    (process_type_name_idempotent_on_wf
      (Desc.generic ["alloc".toList, "boxed".toList, "Box".toList]
        (DescArgs.single
          (Desc.dynT ["std".toList, "error".toList, "Error".toList])))
      (by decide)).2.2⟩
